import Mathlib

/-!
Verification of the QDSX engine (`qdsx_engine.py`): reversible byte
transforms (delta, RLE, BWT+MTF+RLE), the container header codec, and the
pack/unpack orchestrator with its strategy search and self-check.

Modelling conventions:
* byte strings are `List Nat`; genuine byte strings satisfy `∀ b ∈ s, b < 256`;
* Python operations that can raise are modelled with `Option`/`Except`;
* Python's `sorted` with a key function is a stable sort, which on a list of
  pairwise-distinct indices coincides with sorting by the total order
  "key, then index"; the embedding sorts by that total order directly;
* the external entropy coders (`zlib`, `bz2`, `lzma`), the JSON metadata
  serializer, and SHA-256 are opaque collaborators of the engine and are
  modelled as parameters collected in the `Ext` structure.
-/

namespace QDSX

/-- Identity transform `tf_none`. -/
def tf_none (data : List Nat) : List Nat := data

/-- Identity inverse transform `itf_none`. -/
def itf_none (data : List Nat) : List Nat := data

/-- Loop of `tf_delta`: `out.append((b - prev) & 0xFF); prev = b`.
`prev` is the previous *input* byte. `& 0xFF` on a possibly negative Python
int is mathematical mod 256, i.e. `Int.emod`. -/
def tfDeltaAux (prev : Nat) : List Nat → List Nat
  | [] => []
  | b :: rest => (((b : Int) - (prev : Int)) % 256).toNat :: tfDeltaAux b rest

/-- Forward delta transform `tf_delta` (seeded with `prev = 0`). -/
def tf_delta (data : List Nat) : List Nat := tfDeltaAux 0 data

/-- Loop of `itf_delta`: `val = (b + prev) & 0xFF; out.append(val); prev = val`. -/
def itfDeltaAux (prev : Nat) : List Nat → List Nat
  | [] => []
  | b :: rest => ((b + prev) % 256) :: itfDeltaAux ((b + prev) % 256) rest

/-- Inverse delta transform `itf_delta` (cumulative mod-256 sum, seed 0). -/
def itf_delta (data : List Nat) : List Nat := itfDeltaAux 0 data

/-- Inner `while` loop of `tf_rle`: starting with current count `run` for
byte `b`, consume equal bytes while `run < 255`; return the final run length
and the unconsumed remainder. -/
def countRun (b : Nat) : List Nat → Nat → Nat × List Nat
  | [], run => (run, [])
  | x :: xs, run => if x = b ∧ run < 255 then countRun b xs (run + 1) else (run, x :: xs)

/-- Outer `while` loop of `tf_rle`, with explicit fuel: each iteration
consumes at least one byte, so `data.length` iterations always suffice. -/
def tfRleGo : Nat → List Nat → List Nat
  | 0, _ => []
  | _, [] => []
  | fuel + 1, b :: rest =>
    let p := countRun b rest 1
    b :: p.1 :: tfRleGo fuel p.2

/-- Run-length encoder `tf_rle`: emits `(byte, run)` pairs, runs capped at 255. -/
def tf_rle (data : List Nat) : List Nat := tfRleGo data.length data

/-- Run-length decoder `itf_rle`: `zip(it, it)` pairs the stream; a trailing
unpaired byte is dropped by `zip` (no error is raised). -/
def itf_rle : List Nat → List Nat
  | b :: run :: rest => List.replicate run b ++ itf_rle rest
  | _ => []

/-- Rotation key `data[i:] + data[:i]` used by `bwt_transform`'s sort. -/
def rotKey (data : List Nat) (i : Nat) : List Nat := data.drop i ++ data.take i

/-- Total order on rotation indices: Python's stable `sorted` by `rot_key`
equals sorting by the pair (rotation string, index). -/
def rotRel (data : List Nat) (i j : Nat) : Prop :=
  rotKey data i < rotKey data j ∨ (rotKey data i = rotKey data j ∧ i ≤ j)

instance rotRelDecidable (data : List Nat) : DecidableRel (rotRel data) := fun i j => by
  unfold rotRel
  infer_instance

/-- `order = sorted(range(n), key=rot_key)`. -/
def bwtSort (data : List Nat) : List Nat :=
  List.insertionSort (rotRel data) (List.range data.length)

/-- Last-column entry for sorted rotation `i`:
`data[i - 1] if i != 0 else data[-1]`. -/
def lastColByte (data : List Nat) (i : Nat) : Nat :=
  if i = 0 then data.getD (data.length - 1) 0 else data.getD (i - 1) 0

/-- Forward BWT `bwt_transform`: returns the last column and the rank
(`order.index(0)`) of the unrotated string. -/
def bwt_transform (data : List Nat) : List Nat × Nat :=
  if data.length = 0 then ([], 0)
  else
    let order := bwtSort data
    let primary := List.indexOf 0 order
    (order.map (lastColByte data), primary)

/-- The `count_map` folds of `bwt_inverse`: occurrence rank (1-based) of each
byte among equal bytes seen so far. `cm` is the running count map. -/
def occAux : List Nat → (Nat → Nat) → List Nat
  | [], _ => []
  | b :: rest, cm => (cm b + 1) :: occAux rest (fun x => if x = b then cm b + 1 else cm x)

/-- Total order on `(byte, index)` pairs: Python tuple comparison. -/
def pairRel (p q : Nat × Nat) : Prop := p.1 < q.1 ∨ (p.1 = q.1 ∧ p.2 ≤ q.2)

instance pairRelDecidable : DecidableRel pairRel := fun p q => by
  unfold pairRel
  infer_instance

/-- `first = sorted([(b, i) for i, b in enumerate(last)])`. -/
def firstCol (last : List Nat) : List (Nat × Nat) :=
  List.insertionSort pairRel (last.enum.map (fun e => (e.2, e.1)))

/-- Lookup in the `pos_first` dict built from `zip(first, occ_first)`:
position of the entry whose `(byte, occurrence_rank)` equals `key`.
The keys are pairwise distinct, so dict lookup is the unique (first) match;
`none` models a `KeyError`. -/
def findPos : List ((Nat × Nat) × Nat) → Nat × Nat → Option Nat
  | [], _ => none
  | e :: rest, key => if (e.1.1, e.2) = key then some 0 else (findPos rest key).map (· + 1)

/-- Option-valued map used to build the `LF` table entry by entry. -/
def mapOpt : List Nat → (Nat → Option Nat) → Option (List Nat)
  | [], _ => some []
  | r :: rest, f =>
    match f r with
    | none => none
    | some v => (mapOpt rest f).map (v :: ·)

/-- The `LF` list of `bwt_inverse`:
`LF = [pos_first[(last[r], occ_last[r])] for r in range(n)]`. -/
def lfList (last : List Nat) : Option (List Nat) :=
  let ol := occAux last (fun _ => 0)
  let fp := firstCol last
  let ofc := occAux (fp.map Prod.fst) (fun _ => 0)
  mapOpt (List.range last.length) (fun r => findPos (fp.zip ofc) (last.getD r 0, ol.getD r 0))

/-- The backward-fill loop of `bwt_inverse`, read off in generation order:
starting at row `r` it emits `last[r]` and steps to `LF[r]`, `k` times.
The Python loop writes these bytes into positions `n-1, n-2, …, 0`, so the
result is the reverse of this walk. -/
def lfWalk (last LF : List Nat) : Nat → Nat → List Nat
  | _, 0 => []
  | r, k + 1 => last.getD r 0 :: lfWalk last LF (LF.getD r 0) k

/-- BWT inversion `bwt_inverse` via LF-mapping. `none` models the
`IndexError` raised when `primary` is out of range (for nonempty input). -/
def bwt_inverse (last : List Nat) (primary : Nat) : Option (List Nat) :=
  if last.length = 0 then some []
  else
    match lfList last with
    | none => none
    | some LF =>
      if primary < last.length then some (lfWalk last LF primary last.length).reverse
      else none

/-- `alphabet.index(b)`: position of the first occurrence, `none` models the
`ValueError` when `b` is absent. -/
def mtfFind : List Nat → Nat → Option Nat
  | [], _ => none
  | a :: rest, b => if a = b then some 0 else (mtfFind rest b).map (· + 1)

/-- Loop of `mtf_encode`: emit the current rank of each byte, then move the
byte to the front of the alphabet. -/
def mtfEncodeAux : List Nat → List Nat → Option (List Nat)
  | _, [] => some []
  | alphabet, b :: rest =>
    match mtfFind alphabet b with
    | none => none
    | some idx => (mtfEncodeAux (b :: alphabet.eraseIdx idx) rest).map (idx :: ·)

/-- MTF encoder `mtf_encode` (alphabet initialised to `range(256)`). -/
def mtf_encode (data : List Nat) : Option (List Nat) :=
  mtfEncodeAux (List.range 256) data

/-- Loop of `mtf_decode`: look up the byte at each rank, then move it to the
front. `none` models the `IndexError` on an out-of-range rank. -/
def mtfDecodeAux : List Nat → List Nat → Option (List Nat)
  | _, [] => some []
  | alphabet, idx :: rest =>
    if h : idx < alphabet.length then
      (mtfDecodeAux (alphabet.get ⟨idx, h⟩ :: alphabet.eraseIdx idx) rest).map
        (alphabet.get ⟨idx, h⟩ :: ·)
    else none

/-- MTF decoder `mtf_decode`. -/
def mtf_decode (data : List Nat) : Option (List Nat) :=
  mtfDecodeAux (List.range 256) data

/-- `struct.pack(">I", m)`: big-endian 4-byte encoding; `none` models the
`struct.error` raised when `m ≥ 2^32`. -/
def pack_u32 (m : Nat) : Option (List Nat) :=
  if m < 4294967296 then
    some [m / 16777216 % 256, m / 65536 % 256, m / 256 % 256, m % 256]
  else none

/-- `struct.unpack(">I", l)` on a 4-byte slice: big-endian value. -/
def unpack_u32 (l : List Nat) : Nat :=
  l.foldl (fun acc b => acc * 256 + b) 0

/-- Composite forward transform `tf_bwt_mtf_rle`:
`pack(">I", primary) + tf_rle(mtf_encode(bwt))`. -/
def tf_bwt_mtf_rle (data : List Nat) : Option (List Nat) :=
  let bp := bwt_transform data
  match mtf_encode bp.1 with
  | none => none
  | some mtf => (pack_u32 bp.2).map (fun p4 => p4 ++ tf_rle mtf)

/-- Composite inverse transform `itf_bwt_mtf_rle`. A payload shorter than
4 bytes returns `b""` (the source's early-return, not an error). -/
def itf_bwt_mtf_rle (payload : List Nat) : Option (List Nat) :=
  if payload.length < 4 then some []
  else
    let primary := unpack_u32 (payload.take 4)
    let mtf := itf_rle (payload.drop 4)
    match mtf_decode mtf with
    | none => none
    | some bwt_last => bwt_inverse bwt_last primary

/-- The transform registry `TRANSFORMS`, in source insertion order. The
always-total Python functions are wrapped in `some`. -/
def TRANSFORMS : List (String × (List Nat → Option (List Nat)) × (List Nat → Option (List Nat))) :=
  [("none", fun d => some (tf_none d), fun d => some (itf_none d)),
   ("delta", fun d => some (tf_delta d), fun d => some (itf_delta d)),
   ("rle", fun d => some (tf_rle d), fun d => some (itf_rle d)),
   ("bwt_mtf_rle", tf_bwt_mtf_rle, itf_bwt_mtf_rle)]

/-- Parsed container metadata: the JSON object produced by `json.loads`.
Every field is optional because `qdsx_unpack` reads the dict with `.get`
defaults (and `header["orig_sha256"]`, which may raise `KeyError`). -/
structure Header where
  version : Option Nat
  origName : Option String
  origSize : Option Nat
  origSha256 : Option String
  transform : Option String
  codec : Option String
  timestamp : Option String
deriving DecidableEq

/-- External collaborators of the engine: the three entropy-coder backends
(compress/decompress, each may fail), the JSON metadata serializer and
parser, and SHA-256 (as a hex string). -/
structure Ext where
  zlibC : List Nat → Option (List Nat)
  zlibD : List Nat → Option (List Nat)
  bz2C : List Nat → Option (List Nat)
  bz2D : List Nat → Option (List Nat)
  lzmaC : List Nat → Option (List Nat)
  lzmaD : List Nat → Option (List Nat)
  jdump : Header → List Nat
  jparse : List Nat → Option Header
  sha : List Nat → String

/-- The codec registry `CODECS`, in source insertion order. -/
def CODECS (E : Ext) : List (String × (List Nat → Option (List Nat)) × (List Nat → Option (List Nat))) :=
  [("zlib", E.zlibC, E.zlibD), ("bz2", E.bz2C, E.bz2D), ("lzma", E.lzmaC, E.lzmaD)]

/-- Error taxonomy: each `RuntimeError` / propagated exception of the source,
as a distinct inspectable value. -/
inductive QErr where
  | headerTooSmall
  | badMagic
  | corruptHeaderLength
  | metadataParseFailure
  | unknownTransform (t : String)
  | unknownCodec (c : String)
  | codecFailure
  | transformFailure
  | missingShaKey
  | checksumMismatch
  | noViableStrategy
  | integrityFailure
deriving DecidableEq

/-- `MAGIC = b"QDSX"`. -/
def MAGIC : List Nat := [81, 68, 83, 88]

/-- `VERSION = 2`. -/
def VERSION : Nat := 2

/-- Big-endian 4-byte encoding as used by `encode_header` (`struct.pack`
truncation domain is never exceeded by the engine's small values). -/
def be32enc (m : Nat) : List Nat :=
  [m / 16777216 % 256, m / 65536 % 256, m / 256 % 256, m % 256]

/-- `encode_header`: magic ∥ version ∥ metadata length ∥ metadata bytes. -/
def encode_header (E : Ext) (header : Header) : List Nat :=
  MAGIC ++ be32enc VERSION ++ be32enc (E.jdump header).length ++ E.jdump header

/-- `parse_header`: validates the fixed 12-byte prefix, magic, and the
declared metadata length, then parses the metadata and returns
`(version, header, remaining bytes)`. -/
def parse_header (E : Ext) (blob : List Nat) : Except QErr (Nat × Header × List Nat) :=
  if blob.length < 12 then .error .headerTooSmall
  else if blob.take 4 ≠ MAGIC then .error .badMagic
  else
    let version := unpack_u32 ((blob.drop 4).take 4)
    let hlen := unpack_u32 ((blob.drop 8).take 4)
    if 12 + hlen > blob.length then .error .corruptHeaderLength
    else
      match E.jparse ((blob.drop 12).take hlen) with
      | none => .error .metadataParseFailure
      | some header => .ok (version, header, blob.drop (12 + hlen))

/-- Registry lookup (`TRANSFORMS[name]` / `CODECS[name]`); `none` models the
`KeyError` on an unknown name. -/
def lookupReg {A : Type} (name : String) (reg : List (String × A)) : Option A :=
  (reg.find? (fun e => e.1 = name)).map (fun e => e.2)

/-- Body of `qdsx_unpack` after header parsing: compute the restored bytes
(the `orig_size == 0 and codec == "none"` special case skips both stages),
then compare the recomputed hash against the stored one. -/
def unpack_body (E : Ext) (header : Header) (cdata : List Nat) : Except QErr (List Nat) :=
  let tname := header.transform.getD "none"
  let cname := header.codec.getD "none"
  let raw? : Except QErr (List Nat) :=
    if header.origSize.getD 0 = 0 ∧ cname = "none" then .ok []
    else
      match lookupReg cname (CODECS E) with
      | none => .error (.unknownCodec cname)
      | some c =>
        match lookupReg tname TRANSFORMS with
        | none => .error (.unknownTransform tname)
        | some t =>
          match c.2 cdata with
          | none => .error .codecFailure
          | some dd =>
            match t.2 dd with
            | none => .error .transformFailure
            | some raw => .ok raw
  match raw? with
  | .error e => .error e
  | .ok raw =>
    match header.origSha256 with
    | none => .error .missingShaKey
    | some stored => if E.sha raw ≠ stored then .error .checksumMismatch else .ok raw

/-- `qdsx_unpack` on the artifact bytes: parse the container, then restore
and verify. -/
def qdsx_unpack (E : Ext) (blob : List Nat) : Except QErr (List Nat) :=
  match parse_header E blob with
  | .error e => .error e
  | .ok v => unpack_body E v.2.1 v.2.2

/-- The successful `(transform_name, codec_name, compressed_bytes)`
candidates of the strategy search, in registry iteration order (failing
transforms and codecs are logged and skipped). -/
def candidates (E : Ext) (raw : List Nat) : List (String × String × List Nat) :=
  TRANSFORMS.flatMap (fun t =>
    match t.2.1 raw with
    | none => []
    | some tdata =>
      (CODECS E).filterMap (fun c => (c.2.1 tdata).map (fun cdata => (t.1, c.1, cdata))))

/-- Loop body of the `best_size`/`best_key` tracking:
`if best_size is None or size < best_size: best_size, best_key = …`. -/
def selStep (best : Option (String × String × List Nat)) (c : String × String × List Nat) :
    Option (String × String × List Nat) :=
  match best with
  | none => some c
  | some b => if c.2.2.length < b.2.2.length then some c else some b

/-- The `best_size`/`best_key` fold: a candidate replaces the current best
only when its size is strictly smaller. -/
def selectBest (l : List (String × String × List Nat)) : Option (String × String × List Nat) :=
  l.foldl selStep none

/-- The metadata dict built by `qdsx_pack` for nonempty input. -/
def packHeader (E : Ext) (raw : List Nat) (name ts tname cname : String) : Header :=
  { version := some VERSION
    origName := some name
    origSize := some raw.length
    origSha256 := some (E.sha raw)
    transform := some tname
    codec := some cname
    timestamp := some ts }

/-- The metadata dict built by `qdsx_pack` for empty input. -/
def emptyHeader (E : Ext) (name ts : String) : Header :=
  { version := some VERSION
    origName := some name
    origSize := some 0
    origSha256 := some (E.sha [])
    transform := some "none"
    codec := some "none"
    timestamp := some ts }

/-- Strategy search and serialization of `qdsx_pack` (nonempty input), up to
and including writing the blob, before the self-check. -/
def pack_candidate (E : Ext) (raw : List Nat) (name ts : String) : Except QErr (List Nat) :=
  match selectBest (candidates E raw) with
  | none => .error .noViableStrategy
  | some best =>
    .ok (encode_header E (packHeader E raw name ts best.1 best.2.1) ++ best.2.2)

/-- `qdsx_pack`: empty input bypasses the search; otherwise search, write the
blob, and self-check by unpacking it. A self-check mismatch is the fatal
integrity failure; a self-check exception propagates as itself. -/
def qdsx_pack (E : Ext) (raw : List Nat) (name ts : String) : Except QErr (List Nat) :=
  if raw = [] then .ok (encode_header E (emptyHeader E name ts))
  else
    match pack_candidate E raw name ts with
    | .error e => .error e
    | .ok blob =>
      match qdsx_unpack E blob with
      | .error e => .error e
      | .ok restored => if restored ≠ raw then .error .integrityFailure else .ok blob

instance exceptDecEq {e a : Type} [DecidableEq e] [DecidableEq a] :
    DecidableEq (Except e a) := fun x y =>
  match x, y with
  | .error u, .error v =>
    if h : u = v then isTrue (by rw [h]) else isFalse (fun c => by cases c; exact h rfl)
  | .error _, .ok _ => isFalse (fun c => by cases c)
  | .ok _, .error _ => isFalse (fun c => by cases c)
  | .ok u, .ok v =>
    if h : u = v then isTrue (by rw [h]) else isFalse (fun c => by cases c; exact h rfl)

/-- Modelled from the spec (§4.4): the feedback filter the spec claims for
the forward delta transform, `out[i] = (in[i] - out[i-1]) mod 256` — the
difference is taken from the previous *output* byte. -/
def specDeltaAux (prevOut : Nat) : List Nat → List Nat
  | [] => []
  | b :: rest =>
    (((b : Int) - (prevOut : Int)) % 256).toNat ::
      specDeltaAux ((((b : Int) - (prevOut : Int)) % 256).toNat) rest

/-- Modelled from the spec: the spec's forward delta filter, seeded with 0. -/
def spec_delta_filter (data : List Nat) : List Nat := specDeltaAux 0 data

/-- Modelled from the spec (§4.8): the earliest candidate in iteration order
achieving the minimal compressed size. -/
def specEarliestMin (l : List (String × String × List Nat)) : Option (String × String × List Nat) :=
  l.find? (fun c => l.all (fun c' => c.2.2.length ≤ c'.2.2.length))

/-! ### Proof infrastructure for the BWT correctness argument. These
definitions are not part of the embedding; they name the quantities the
proofs reason about. -/

/-- Strict lexicographic order on `(byte, index)` pairs. -/
def pairLt (x y : Nat × Nat) : Prop := x.1 < y.1 ∨ (x.1 = y.1 ∧ x.2 < y.2)

instance pairLtDecidable : DecidableRel pairLt := fun x y => by
  unfold pairLt
  infer_instance

/-- Strict version of the rotation sort order: rotation string, then index. -/
def keyLt (s : List Nat) (i j : Nat) : Prop :=
  rotKey s i < rotKey s j ∨ (rotKey s i = rotKey s j ∧ i < j)

instance keyLtDecidable (s : List Nat) : DecidableRel (keyLt s) := fun i j => by
  unfold keyLt
  infer_instance

/-- The rank that `bwt_inverse`'s `LF[r]` computes: the number of pairs
`(last[j], j)` strictly below `(last[r], r)` in lexicographic order. -/
def lfRank (L : List Nat) (r : Nat) : Nat :=
  (List.range L.length).countP (fun j => decide (pairLt (L.getD j 0, j) (L.getD r 0, r)))

/-- Cyclic predecessor of an index modulo `n`. -/
def bwtPred (n q : Nat) : Nat := (q + n - 1) % n

/-- Cyclic successor of an index modulo `n`. -/
def bwtSucc (n p : Nat) : Nat := (p + 1) % n

/-- The byte sequence the LF walk is expected to emit: starting from
(conceptual rotation) `t`, step to the cyclic predecessor `k` times,
emitting the source byte at each predecessor. -/
def walkSpec (s : List Nat) : Nat → Nat → List Nat
  | _, 0 => []
  | t, k + 1 => s.getD (bwtPred s.length t) 0 :: walkSpec s (bwtPred s.length t) k

/-! ### Concrete external collaborators used by the witnesses below. -/

def hdrC7 : Header :=
  ⟨some 2, some "f", some 0, some "", some "none", some "none", some "t"⟩

def extC7 : Ext :=
  { zlibC := fun _ => none, zlibD := fun _ => none,
    bz2C := fun _ => none, bz2D := fun _ => none,
    lzmaC := fun _ => none, lzmaD := fun _ => none,
    jdump := fun _ => [], jparse := fun _ => some hdrC7, sha := fun _ => "" }

def hdrC8a : Header :=
  ⟨some 2, some "f", some 5, some "", some "none", some "gzip", some "t"⟩

def extC8a : Ext :=
  { zlibC := fun _ => none, zlibD := fun _ => none,
    bz2C := fun _ => none, bz2D := fun _ => none,
    lzmaC := fun _ => none, lzmaD := fun _ => none,
    jdump := fun _ => [], jparse := fun _ => some hdrC8a, sha := fun _ => "" }

def hdrC8b : Header :=
  ⟨some 2, some "f", some 5, some "", some "weird", some "zlib", some "t"⟩

def extC8b : Ext :=
  { zlibC := fun _ => none, zlibD := fun _ => none,
    bz2C := fun _ => none, bz2D := fun _ => none,
    lzmaC := fun _ => none, lzmaD := fun _ => none,
    jdump := fun _ => [], jparse := fun _ => some hdrC8b, sha := fun _ => "" }

def hdrC9 : Header :=
  ⟨some 2, some "f", some 0, some "", some "none", some "none", some "t"⟩

def extC9 : Ext :=
  { zlibC := fun _ => none, zlibD := fun _ => none,
    bz2C := fun _ => none, bz2D := fun _ => none,
    lzmaC := fun _ => none, lzmaD := fun _ => none,
    jdump := fun _ => [], jparse := fun _ => some hdrC9, sha := fun _ => "" }

def hdrC10 : Header :=
  ⟨some 2, some "f", some 0, some "", none, none, none⟩

def extC10 : Ext :=
  { zlibC := fun _ => none, zlibD := fun _ => none,
    bz2C := fun _ => none, bz2D := fun _ => none,
    lzmaC := fun _ => none, lzmaD := fun _ => none,
    jdump := fun _ => [], jparse := fun _ => some hdrC10, sha := fun _ => "" }

def hdrC2a : Header :=
  ⟨some 2, some "f", some 1, some "", some "none", some "zlib", some "t"⟩

def extC2a : Ext :=
  { zlibC := fun b => some b, zlibD := fun b => some b,
    bz2C := fun _ => none, bz2D := fun _ => none,
    lzmaC := fun _ => none, lzmaD := fun _ => none,
    jdump := fun _ => [], jparse := fun _ => some hdrC2a, sha := fun _ => "" }

def hdrC2b : Header :=
  ⟨some 2, some "f", some 0, some "", some "none", some "none", some "t"⟩

def extC2b : Ext :=
  { zlibC := fun _ => none, zlibD := fun _ => none,
    bz2C := fun _ => none, bz2D := fun _ => none,
    lzmaC := fun _ => none, lzmaD := fun _ => none,
    jdump := fun _ => [], jparse := fun _ => some hdrC2b, sha := fun _ => "" }

def hdrC2c : Header :=
  ⟨some 2, some "f", some 1, some "", some "none", some "zlib", some "t"⟩

def extC2c : Ext :=
  { zlibC := fun _ => some [7], zlibD := fun _ => some [9],
    bz2C := fun _ => none, bz2D := fun _ => none,
    lzmaC := fun _ => none, lzmaD := fun _ => none,
    jdump := fun _ => [], jparse := fun _ => some hdrC2c, sha := fun _ => "" }

set_option maxRecDepth 100000

/-! ### Strategy selection: claim C6 -/

theorem find?_congrOn {A : Type} : ∀ (l : List A) (p q : A → Bool),
    (∀ x ∈ l, p x = q x) → l.find? p = l.find? q := by
  intro l
  induction l with
  | nil => intro p q _; rfl
  | cons a l ih =>
    intro p q hpq
    have ha : p a = q a := hpq a (List.mem_cons_self a l)
    cases hq : q a with
    | true =>
      rw [List.find?_cons_of_pos _ (ha.trans hq), List.find?_cons_of_pos _ hq]
    | false =>
      rw [List.find?_cons_of_neg _ (by rw [ha, hq]; exact Bool.false_ne_true),
        List.find?_cons_of_neg _ (by rw [hq]; exact Bool.false_ne_true)]
      exact ih p q (fun x hx => hpq x (List.mem_cons_of_mem a hx))

theorem bool_eq_of_iff {a b : Bool} (h : a = true ↔ b = true) : a = b := by
  cases a <;> cases b <;> simp_all

theorem selFold_eq_find? :
    ∀ (l : List (String × String × List Nat)) (b : String × String × List Nat),
    l.foldl selStep (some b) =
      (b :: l).find? (fun c => (b :: l).all (fun x => c.2.2.length ≤ x.2.2.length)) := by
  intro l
  induction l with
  | nil =>
    intro b
    simp [List.find?, List.all]
  | cons c l ih =>
    intro b
    have hfold : (c :: l).foldl selStep (some b) = l.foldl selStep (selStep (some b) c) := rfl
    rw [hfold]
    by_cases hlt : c.2.2.length < b.2.2.length
    · have hstep : selStep (some b) c = some c := by simp [selStep, hlt]
      rw [hstep, ih c]
      have hpb : ¬ ((b :: c :: l).all (fun x => decide (b.2.2.length ≤ x.2.2.length))) = true := by
        simp only [List.all_cons, Bool.and_eq_true, decide_eq_true_eq]
        intro hcontra
        omega
      have hr : ((b :: c :: l).find?
            (fun z => (b :: c :: l).all (fun x => decide (z.2.2.length ≤ x.2.2.length)))) =
          ((c :: l).find?
            (fun z => (b :: c :: l).all (fun x => decide (z.2.2.length ≤ x.2.2.length)))) :=
        List.find?_cons_of_neg _ hpb
      rw [hr]
      apply find?_congrOn
      intro x hx
      apply bool_eq_of_iff
      simp only [List.all_eq_true, decide_eq_true_eq]
      constructor
      · intro h y hy
        have hxc : x.2.2.length ≤ c.2.2.length := h c (List.mem_cons_self c l)
        rcases List.mem_cons.mp hy with hyb | hyrest
        · rw [hyb]; omega
        · exact h y hyrest
      · intro h y hy
        exact h y (List.mem_cons_of_mem b hy)
    · have hstep : selStep (some b) c = some b := by simp [selStep, hlt]
      rw [hstep, ih b]
      have hbc : b.2.2.length ≤ c.2.2.length := by omega
      cases hqb : ((b :: l).all (fun y => decide (b.2.2.length ≤ y.2.2.length))) with
      | true =>
        have hall := List.all_eq_true.mp hqb
        have hpbt : ((b :: c :: l).all (fun y => decide (b.2.2.length ≤ y.2.2.length))) = true := by
          rw [List.all_eq_true]
          intro y hy
          rcases List.mem_cons.mp hy with h1 | h1
          · rw [h1]; simp
          · rcases List.mem_cons.mp h1 with h2 | h2
            · rw [h2]
              simp only [decide_eq_true_eq]
              exact hbc
            · exact hall y (List.mem_cons_of_mem b h2)
        have hf1 : ((b :: l).find?
              (fun z => (b :: l).all (fun x => decide (z.2.2.length ≤ x.2.2.length)))) = some b :=
          List.find?_cons_of_pos _ hqb
        have hf2 : ((b :: c :: l).find?
              (fun z => (b :: c :: l).all (fun x => decide (z.2.2.length ≤ x.2.2.length)))) = some b :=
          List.find?_cons_of_pos _ hpbt
        rw [hf1, hf2]
      | false =>
        obtain ⟨y, hymem0, hylt0⟩ := List.all_eq_false.mp hqb
        simp only [decide_eq_true_eq] at hylt0
        have hylt : y.2.2.length < b.2.2.length := by omega
        have hy2 : y ∈ l := by
          rcases List.mem_cons.mp hymem0 with h1 | h1
          · subst h1; omega
          · exact h1
        have hpbf : ¬ ((b :: c :: l).all (fun z => decide (b.2.2.length ≤ z.2.2.length))) = true := by
          rw [List.all_eq_true]
          intro hcontra
          have hcy := hcontra y (List.mem_cons_of_mem b (List.mem_cons_of_mem c hy2))
          simp only [decide_eq_true_eq] at hcy
          omega
        have hpcf : ¬ ((b :: c :: l).all (fun z => decide (c.2.2.length ≤ z.2.2.length))) = true := by
          rw [List.all_eq_true]
          intro hcontra
          have hcy := hcontra y (List.mem_cons_of_mem b (List.mem_cons_of_mem c hy2))
          simp only [decide_eq_true_eq] at hcy
          omega
        have hqbf : ¬ ((b :: l).all (fun z => decide (b.2.2.length ≤ z.2.2.length))) = true := by
          rw [hqb]
          exact Bool.false_ne_true
        have hf1 : ((b :: c :: l).find?
              (fun z => (b :: c :: l).all (fun x => decide (z.2.2.length ≤ x.2.2.length)))) =
            ((c :: l).find?
              (fun z => (b :: c :: l).all (fun x => decide (z.2.2.length ≤ x.2.2.length)))) :=
          List.find?_cons_of_neg _ hpbf
        have hf2 : ((c :: l).find?
              (fun z => (b :: c :: l).all (fun x => decide (z.2.2.length ≤ x.2.2.length)))) =
            (l.find?
              (fun z => (b :: c :: l).all (fun x => decide (z.2.2.length ≤ x.2.2.length)))) :=
          List.find?_cons_of_neg _ hpcf
        have hf3 : ((b :: l).find?
              (fun z => (b :: l).all (fun x => decide (z.2.2.length ≤ x.2.2.length)))) =
            (l.find?
              (fun z => (b :: l).all (fun x => decide (z.2.2.length ≤ x.2.2.length)))) :=
          List.find?_cons_of_neg _ hqbf
        rw [hf1, hf2, hf3]
        apply find?_congrOn
        intro x hx
        apply bool_eq_of_iff
        simp only [List.all_eq_true, decide_eq_true_eq]
        constructor
        · intro h z hz
          have hxb : x.2.2.length ≤ b.2.2.length := h b (List.mem_cons_self b l)
          rcases List.mem_cons.mp hz with h1 | h1
          · rw [h1]; omega
          · rcases List.mem_cons.mp h1 with h2 | h2
            · rw [h2]; omega
            · exact h z (List.mem_cons_of_mem b h2)
        · intro h z hz
          rcases List.mem_cons.mp hz with h1 | h1
          · rw [h1]
            exact h b (List.mem_cons_self b (c :: l))
          · exact h z (List.mem_cons_of_mem b (List.mem_cons_of_mem c h1))

/-- Claim C6: the strategy search iterates the transform and codec
registries in their fixed order and replaces the current best only on a
strictly smaller compressed size, so the selected candidate is exactly the
earliest candidate in iteration order achieving the minimal size. The
search is a pure function of the input and the registries, so two runs on
identical input select the identical transform name, codec name, and
compressed bytes. -/
theorem c6_selection_earliest_minimal (E : Ext) (raw : List Nat) :
    selectBest (candidates E raw) = specEarliestMin (candidates E raw) := by
  generalize candidates E raw = l
  cases l with
  | nil => rfl
  | cons c l =>
    have h0 : selectBest (c :: l) = l.foldl selStep (some c) := rfl
    rw [h0, selFold_eq_find? l c]
    rfl

/-! ### Container header: claims C7, C9, C10, C8, C2 -/

theorem take_append_len {A : Type} (l1 l2 : List A) (n : Nat) (h : l1.length = n) :
    (l1 ++ l2).take n = l1 := by
  subst h
  exact List.take_left l1 l2

theorem drop_append_len {A : Type} (l1 l2 : List A) (n : Nat) (h : l1.length = n) :
    (l1 ++ l2).drop n = l2 := by
  subst h
  exact List.drop_left l1 l2

theorem be32enc_length (m : Nat) : (be32enc m).length = 4 := rfl

theorem unpack_u32_be32enc (m : Nat) (h : m < 4294967296) : unpack_u32 (be32enc m) = m := by
  simp only [unpack_u32, be32enc, List.foldl_cons, List.foldl_nil]
  omega

/-- Claim C7: header parsing fails with the header-too-small error for every
blob shorter than the 12-byte fixed prefix; with the bad-magic error for
every blob of length at least 12 whose first 4 bytes are not `QDSX`; with
the corrupt-header-length error when the declared metadata length exceeds
the bytes remaining after offset 12; and otherwise (when the metadata
parses) returns the version, the parsed metadata, and exactly the bytes
after the metadata as the compressed payload. -/
theorem c7_parse_header_classification (E : Ext) (blob : List Nat) :
    (blob.length < 12 → parse_header E blob = .error .headerTooSmall) ∧
    (12 ≤ blob.length → blob.take 4 ≠ MAGIC → parse_header E blob = .error .badMagic) ∧
    (12 ≤ blob.length → blob.take 4 = MAGIC →
      blob.length < 12 + unpack_u32 ((blob.drop 8).take 4) →
      parse_header E blob = .error .corruptHeaderLength) ∧
    (∀ hd : Header, 12 ≤ blob.length → blob.take 4 = MAGIC →
      12 + unpack_u32 ((blob.drop 8).take 4) ≤ blob.length →
      E.jparse ((blob.drop 12).take (unpack_u32 ((blob.drop 8).take 4))) = some hd →
      parse_header E blob =
        .ok (unpack_u32 ((blob.drop 4).take 4), hd,
          blob.drop (12 + unpack_u32 ((blob.drop 8).take 4)))) := by
  refine ⟨?_, ?_, ?_, ?_⟩
  · intro hsmall
    simp [parse_header, hsmall]
  · intro hlen hmag
    rw [parse_header, if_neg (by omega), if_pos hmag]
  · intro hlen hmag hbound
    rw [parse_header, if_neg (by omega), if_neg (by rw [hmag]; exact fun c => c rfl)]
    simp only
    rw [if_pos (by omega)]
  · intro hd hlen hmag hbound hj
    rw [parse_header, if_neg (by omega), if_neg (by rw [hmag]; exact fun c => c rfl)]
    simp only
    rw [if_neg (by omega), hj]

/-- Parsing an encoded container recovers the header and an empty payload,
assuming the external JSON codec round-trips on this header and the
metadata is shorter than 2^32 bytes. -/
theorem parse_header_encode_header (E : Ext) (hd : Header)
    (hj : E.jparse (E.jdump hd) = some hd) (hl : (E.jdump hd).length < 4294967296) :
    parse_header E (encode_header E hd) = .ok (VERSION, hd, []) := by
  have hsplit : encode_header E hd =
      (MAGIC ++ be32enc VERSION) ++ (be32enc (E.jdump hd).length ++ E.jdump hd) := by
    simp [encode_header, List.append_assoc]
  have hlen8 : (MAGIC ++ be32enc VERSION).length = 8 := rfl
  have hlen12 : ((MAGIC ++ be32enc VERSION) ++ be32enc (E.jdump hd).length).length = 12 := rfl
  have hblen : (encode_header E hd).length = 12 + (E.jdump hd).length := by
    rw [hsplit, ← List.append_assoc, List.length_append, hlen12]
  have htake4 : (encode_header E hd).take 4 = MAGIC := by
    rw [encode_header, List.append_assoc, List.append_assoc]
    exact take_append_len _ _ 4 rfl
  have hdrop8 : (encode_header E hd).drop 8 = be32enc (E.jdump hd).length ++ E.jdump hd := by
    rw [hsplit]
    exact drop_append_len _ _ 8 hlen8
  have hslice8 : ((encode_header E hd).drop 8).take 4 = be32enc (E.jdump hd).length := by
    rw [hdrop8]
    exact take_append_len _ _ 4 rfl
  have hlenval : unpack_u32 (((encode_header E hd).drop 8).take 4) = (E.jdump hd).length := by
    rw [hslice8]
    exact unpack_u32_be32enc _ hl
  have hdrop4 : ((encode_header E hd).drop 4).take 4 = be32enc VERSION := by
    have : (encode_header E hd).drop 4 =
        be32enc VERSION ++ (be32enc (E.jdump hd).length ++ E.jdump hd) := by
      rw [encode_header, List.append_assoc, List.append_assoc]
      exact drop_append_len _ _ 4 rfl
    rw [this]
    exact take_append_len _ _ 4 rfl
  have hdrop12 : (encode_header E hd).drop 12 = E.jdump hd := by
    rw [hsplit, ← List.append_assoc]
    exact drop_append_len _ _ 12 hlen12
  have hmeta : ((encode_header E hd).drop 12).take (E.jdump hd).length = E.jdump hd := by
    rw [hdrop12]
    exact List.take_length (E.jdump hd)
  have hrest : (encode_header E hd).drop (12 + (E.jdump hd).length) = [] := by
    rw [hsplit, ← List.append_assoc]
    have := drop_append_len
      (((MAGIC ++ be32enc VERSION) ++ be32enc (E.jdump hd).length) ++ E.jdump hd)
      ([] : List Nat) (12 + (E.jdump hd).length)
      (by rw [List.length_append, hlen12])
    simpa using this
  have hc := (c7_parse_header_classification E (encode_header E hd)).2.2.2 hd
    (by rw [hblen]; omega) htake4 (by rw [hlenval, hblen]) (by rw [hlenval, hmeta]; exact hj)
  rw [hc, hlenval, hrest, hdrop4, unpack_u32_be32enc VERSION (by decide)]

/-- Unpacking the empty-input artifact's header yields the empty byte
string: the `orig_size == 0 and codec == "none"` special case applies and
the checksum of `b""` matches the stored one. -/
theorem unpack_body_emptyHeader (E : Ext) (name ts : String) (cdata : List Nat) :
    unpack_body E (emptyHeader E name ts) cdata = .ok [] := by
  simp [unpack_body, emptyHeader]

/-- Claim C9: packing the empty input bypasses the strategy search and
produces an artifact whose metadata records transform `none`, codec `none`
and original size 0, with an empty compressed payload; unpacking that
artifact returns the empty byte string. (The two hypotheses state that the
external JSON codec round-trips on this header and that the metadata is
shorter than 2^32 bytes, as `json` and `struct.pack` guarantee.) -/
theorem c9_empty_input (E : Ext) (name ts : String)
    (hj : E.jparse (E.jdump (emptyHeader E name ts)) = some (emptyHeader E name ts))
    (hl : (E.jdump (emptyHeader E name ts)).length < 4294967296) :
    qdsx_pack E [] name ts = .ok (encode_header E (emptyHeader E name ts)) ∧
    (emptyHeader E name ts).transform = some "none" ∧
    (emptyHeader E name ts).codec = some "none" ∧
    (emptyHeader E name ts).origSize = some 0 ∧
    (encode_header E (emptyHeader E name ts)).drop (12 + (E.jdump (emptyHeader E name ts)).length) = [] ∧
    qdsx_unpack E (encode_header E (emptyHeader E name ts)) = .ok [] := by
  refine ⟨rfl, rfl, rfl, rfl, ?_, ?_⟩
  · have hp := parse_header_encode_header E (emptyHeader E name ts) hj hl
    have hsplit : encode_header E (emptyHeader E name ts) =
        ((MAGIC ++ be32enc VERSION) ++ be32enc (E.jdump (emptyHeader E name ts)).length) ++
          E.jdump (emptyHeader E name ts) := by
      simp [encode_header, List.append_assoc]
    rw [hsplit]
    have := drop_append_len (((MAGIC ++ be32enc VERSION) ++
        be32enc (E.jdump (emptyHeader E name ts)).length) ++ E.jdump (emptyHeader E name ts))
      ([] : List Nat) (12 + (E.jdump (emptyHeader E name ts)).length)
      (by rw [List.length_append]; rfl)
    simpa using this
  · rw [qdsx_unpack, parse_header_encode_header E (emptyHeader E name ts) hj hl]
    exact unpack_body_emptyHeader E name ts []

/-- Claim C10: when the parsed JSON metadata omits the `transform` or
`codec` key, unpack does not fail on the missing key: the names are read
with `.get(…, "none")`, so unpacking proceeds exactly as if the missing
names were present as `"none"`; in particular an artifact recording
original size 0 whose metadata carries no codec field (and whose stored
hash is the hash of the empty string) unpacks to the empty byte string. -/
theorem c10_missing_names_default (E : Ext) (blob : List Nat) (v : Nat) (hd : Header)
    (cdata : List Nat) (hp : parse_header E blob = .ok (v, hd, cdata)) :
    qdsx_unpack E blob = unpack_body E
      { hd with transform := some (hd.transform.getD "none"),
                codec := some (hd.codec.getD "none") } cdata ∧
    (hd.codec = none → hd.origSize.getD 0 = 0 → hd.origSha256 = some (E.sha []) →
      qdsx_unpack E blob = .ok []) := by
  have hu : qdsx_unpack E blob = unpack_body E hd cdata := by
    rw [qdsx_unpack, hp]
  constructor
  · rw [hu]
    simp [unpack_body]
  · intro hc hs hsha
    rw [hu]
    simp [unpack_body, hc, hs, hsha]

/-- Claim C8: for an artifact whose header parses but whose codec or
transform name is missing from the respective registry (outside the
empty-payload special case), unpack fails with the distinct inspectable
unknown-codec / unknown-transform error carrying that name (the codec
lookup happens first, as in the source). -/
theorem c8_unknown_names (E : Ext) (blob : List Nat) (v : Nat) (hd : Header)
    (cdata : List Nat) (hp : parse_header E blob = .ok (v, hd, cdata))
    (hno : ¬ (hd.origSize.getD 0 = 0 ∧ hd.codec.getD "none" = "none")) :
    ((lookupReg (hd.codec.getD "none") (CODECS E)).isSome = false →
      qdsx_unpack E blob = .error (.unknownCodec (hd.codec.getD "none"))) ∧
    ((lookupReg (hd.codec.getD "none") (CODECS E)).isSome = true →
      (lookupReg (hd.transform.getD "none") TRANSFORMS).isSome = false →
      qdsx_unpack E blob = .error (.unknownTransform (hd.transform.getD "none"))) := by
  have hu : qdsx_unpack E blob = unpack_body E hd cdata := by
    rw [qdsx_unpack, hp]
  constructor
  · intro hcod
    rw [hu, unpack_body]
    have hnone : lookupReg (hd.codec.getD "none") (CODECS E) = none :=
      Option.not_isSome_iff_eq_none.mp (by rw [hcod]; exact Bool.false_ne_true)
    simp only [if_neg hno, hnone]
  · intro hcod htr
    rw [hu, unpack_body]
    obtain ⟨c, hc⟩ := Option.isSome_iff_exists.mp hcod
    have hnone : lookupReg (hd.transform.getD "none") TRANSFORMS = none :=
      Option.not_isSome_iff_eq_none.mp (by rw [htr]; exact Bool.false_ne_true)
    simp only [if_neg hno, hc, hnone]

/-- Claim C2: the self-check after serialization. If `qdsx_pack` succeeds
then unpacking the produced artifact reproduces the original input
byte-exactly (for empty input under the JSON round-trip proviso of C9);
and if the self-check decodes successfully to bytes that differ from the
input, `qdsx_pack` fails with the fatal integrity-failure error. -/
theorem c2_self_check (E : Ext) (raw : List Nat) (name ts : String) :
    (raw ≠ [] → ∀ blob, qdsx_pack E raw name ts = .ok blob →
      qdsx_unpack E blob = .ok raw) ∧
    (raw = [] →
      E.jparse (E.jdump (emptyHeader E name ts)) = some (emptyHeader E name ts) →
      (E.jdump (emptyHeader E name ts)).length < 4294967296 →
      ∀ blob, qdsx_pack E raw name ts = .ok blob → qdsx_unpack E blob = .ok raw) ∧
    (raw ≠ [] → ∀ blob restored, pack_candidate E raw name ts = .ok blob →
      qdsx_unpack E blob = .ok restored → restored ≠ raw →
      qdsx_pack E raw name ts = .error .integrityFailure) := by
  refine ⟨?_, ?_, ?_⟩
  · intro hne blob hpk
    rw [qdsx_pack, if_neg hne] at hpk
    cases hcand : pack_candidate E raw name ts with
    | error e => rw [hcand] at hpk; cases hpk
    | ok blob' =>
      rw [hcand] at hpk
      simp only at hpk
      cases hunp : qdsx_unpack E blob' with
      | error e => rw [hunp] at hpk; cases hpk
      | ok restored =>
        rw [hunp] at hpk
        simp only at hpk
        by_cases hr : restored ≠ raw
        · rw [if_pos hr] at hpk; cases hpk
        · rw [if_neg hr] at hpk
          cases hpk
          push_neg at hr
          rw [hunp, hr]
  · intro he hj hl blob hpk
    subst he
    rw [qdsx_pack, if_pos rfl] at hpk
    cases hpk
    exact (c9_empty_input E name ts hj hl).2.2.2.2.2
  · intro hne blob restored hcand hunp hdiff
    rw [qdsx_pack, if_neg hne, hcand]
    simp only [hunp]
    rw [if_pos hdiff]

/-- Claim C7 witness: the four branches of the classification at concrete
blobs — an empty blob, twelve zero bytes, a blob declaring 9 metadata bytes
with none available, and a well-formed header-only blob. -/
theorem c7_parse_header_witness :
    parse_header extC7 [] = .error .headerTooSmall ∧
    parse_header extC7 [0, 0, 0, 0, 0, 0, 0, 0, 0, 0, 0, 0] = .error .badMagic ∧
    parse_header extC7 [81, 68, 83, 88, 0, 0, 0, 2, 0, 0, 0, 9] = .error .corruptHeaderLength ∧
    parse_header extC7 [81, 68, 83, 88, 0, 0, 0, 2, 0, 0, 0, 0] = .ok (2, hdrC7, []) := by
  refine ⟨?_, ?_, ?_, ?_⟩
  · exact (c7_parse_header_classification extC7 []).1 (by decide)
  · exact (c7_parse_header_classification extC7 [0, 0, 0, 0, 0, 0, 0, 0, 0, 0, 0, 0]).2.1
      (by decide) (by decide)
  · exact (c7_parse_header_classification extC7 [81, 68, 83, 88, 0, 0, 0, 2, 0, 0, 0, 9]).2.2.1
      (by decide) (by decide) (by decide)
  · exact ((c7_parse_header_classification extC7 [81, 68, 83, 88, 0, 0, 0, 2, 0, 0, 0, 0]).2.2.2
      hdrC7 (by decide) (by decide) (by decide) (by decide)).trans (by decide)

/-- Claim C9 witness: packing the empty input with concrete external
collaborators, and unpacking the produced artifact. -/
theorem c9_empty_input_witness :
    qdsx_pack extC9 [] "f" "t" = .ok [81, 68, 83, 88, 0, 0, 0, 2, 0, 0, 0, 0] ∧
    qdsx_unpack extC9 [81, 68, 83, 88, 0, 0, 0, 2, 0, 0, 0, 0] = .ok [] := by
  have hc := c9_empty_input extC9 "f" "t" (by decide) (by decide)
  exact ⟨hc.1.trans (by decide), (by decide : ([81, 68, 83, 88, 0, 0, 0, 2, 0, 0, 0, 0] : List Nat) = encode_header extC9 (emptyHeader extC9 "f" "t")) ▸ hc.2.2.2.2.2⟩

/-- Claim C10 witness: an artifact whose metadata omits both the codec and
the transform key, records original size 0 and the hash of the empty
string, unpacks to the empty byte string. -/
theorem c10_missing_names_witness :
    qdsx_unpack extC10 [81, 68, 83, 88, 0, 0, 0, 2, 0, 0, 0, 0] = .ok [] := by
  have hp : parse_header extC10 [81, 68, 83, 88, 0, 0, 0, 2, 0, 0, 0, 0] =
      .ok (2, hdrC10, []) := by decide
  exact (c10_missing_names_default extC10 _ 2 hdrC10 [] hp).2 (by decide) (by decide) (by decide)

/-- Claim C8 witness: an artifact naming the unknown codec `gzip` fails
with the unknown-codec error, and one naming the known codec `zlib` but the
unknown transform `weird` fails with the unknown-transform error. -/
theorem c8_unknown_names_witness :
    qdsx_unpack extC8a [81, 68, 83, 88, 0, 0, 0, 2, 0, 0, 0, 0] =
      .error (.unknownCodec "gzip") ∧
    qdsx_unpack extC8b [81, 68, 83, 88, 0, 0, 0, 2, 0, 0, 0, 0] =
      .error (.unknownTransform "weird") := by
  constructor
  · have hp : parse_header extC8a [81, 68, 83, 88, 0, 0, 0, 2, 0, 0, 0, 0] =
        .ok (2, hdrC8a, []) := by decide
    exact ((c8_unknown_names extC8a _ 2 hdrC8a [] hp (by decide)).1 (by decide)).trans (by decide)
  · have hp : parse_header extC8b [81, 68, 83, 88, 0, 0, 0, 2, 0, 0, 0, 0] =
        .ok (2, hdrC8b, []) := by decide
    exact ((c8_unknown_names extC8b _ 2 hdrC8b [] hp (by decide)).2 (by decide) (by decide)).trans
      (by decide)

/-- Claim C2 witness: a successful pack whose artifact unpacks to the
input; a successful empty pack likewise; and external collaborators whose
decompressor corrupts the payload, making the self-check decode to
different bytes and `qdsx_pack` fail with the integrity error. -/
theorem c2_self_check_witness :
    qdsx_unpack extC2a [81, 68, 83, 88, 0, 0, 0, 2, 0, 0, 0, 0, 1] = .ok [1] ∧
    qdsx_unpack extC2b [81, 68, 83, 88, 0, 0, 0, 2, 0, 0, 0, 0] = .ok [] ∧
    qdsx_pack extC2c [1] "f" "t" = .error .integrityFailure := by
  refine ⟨?_, ?_, ?_⟩
  · exact (c2_self_check extC2a [1] "f" "t").1 (by decide) _ (by decide)
  · exact (c2_self_check extC2b [] "f" "t").2.1 rfl (by decide) (by decide) _ (by decide)
  · exact (c2_self_check extC2c [1] "f" "t").2.2 (by decide)
      [81, 68, 83, 88, 0, 0, 0, 2, 0, 0, 0, 0, 7] [9] (by decide) (by decide) (by decide)

/-! ### Run-length encoder: basic lemmas -/

theorem countRun_snd_length (b : Nat) : ∀ (xs : List Nat) (run : Nat),
    (countRun b xs run).2.length ≤ xs.length := by
  intro xs
  induction xs with
  | nil => intro run; simp [countRun]
  | cons x xs ih =>
    intro run
    by_cases h : x = b ∧ run < 255
    · simp only [countRun, if_pos h]
      exact Nat.le_trans (ih (run + 1)) (Nat.le_succ _)
    · simp [countRun, if_neg h]

/-- Fuel irrelevance: any two sufficient fuels give the same result, so
`tfRleGo` computes the `while` loop's result. -/
theorem tfRleGo_fuel : ∀ (f1 : Nat) (l : List Nat) (f2 : Nat), l.length ≤ f1 →
    l.length ≤ f2 → tfRleGo f1 l = tfRleGo f2 l := by
  intro f1
  induction f1 with
  | zero =>
    intro l f2 h1 _
    cases l with
    | nil => cases f2 <;> rfl
    | cons b rest => simp at h1
  | succ f1 ih =>
    intro l f2 h1 h2
    cases l with
    | nil => cases f2 <;> rfl
    | cons b rest =>
      cases f2 with
      | zero => simp at h2
      | succ f2 =>
        simp only [tfRleGo]
        have hc := countRun_snd_length b rest 1
        simp only [List.length_cons] at h1 h2
        rw [ih _ f2 (by omega) (by omega)]

theorem tf_rle_cons (b : Nat) (rest : List Nat) :
    tf_rle (b :: rest) = b :: (countRun b rest 1).1 :: tf_rle (countRun b rest 1).2 := by
  simp only [tf_rle, List.length_cons, tfRleGo]
  exact congrArg (fun t => b :: (countRun b rest 1).1 :: t)
    (tfRleGo_fuel _ _ _ (countRun_snd_length b rest 1) (Nat.le_refl _))

/-! ### Delta transform lemmas and claim C3 -/

theorem tfDeltaAux_zipWith : ∀ (d : List Nat) (prev : Nat),
    tfDeltaAux prev d =
      List.zipWith (fun b p => (((b : Int) - (p : Int)) % 256).toNat) d (prev :: d) := by
  intro d
  induction d with
  | nil => intro prev; rfl
  | cons b rest ih =>
    intro prev
    simp only [tfDeltaAux, List.zipWith]
    exact congrArg _ (ih b)

theorem itfDeltaAux_tfDeltaAux : ∀ (d : List Nat) (prev : Nat), prev < 256 →
    (∀ b ∈ d, b < 256) → itfDeltaAux prev (tfDeltaAux prev d) = d := by
  intro d
  induction d with
  | nil => intro prev _ _; rfl
  | cons b rest ih =>
    intro prev hprev hd
    have hb : b < 256 := hd b (List.mem_cons_self b rest)
    simp only [tfDeltaAux, itfDeltaAux]
    have he : ((((b : Int) - (prev : Int)) % 256).toNat : Int) = ((b : Int) - (prev : Int)) % 256 :=
      Int.toNat_of_nonneg (Int.emod_nonneg _ (by norm_num))
    have hval : ((((b : Int) - (prev : Int)) % 256).toNat + prev) % 256 = b := by omega
    rw [hval]
    exact congrArg _ (ih b hb (fun x hx => hd x (List.mem_cons_of_mem b hx)))

/-- Claim C3 counterexample: on input `[5, 250, 3]` the source's forward
delta output `[5, 245, 9]` (difference from the previous *input* byte)
differs from the spec's feedback filter `out[i] = (in[i] - out[i-1]) mod 256`,
which gives `[5, 245, 14]`. -/
theorem c3_counterexample :
    tf_delta [5, 250, 3] = [5, 245, 9] ∧
    spec_delta_filter [5, 250, 3] = [5, 245, 14] ∧
    tf_delta [5, 250, 3] ≠ spec_delta_filter [5, 250, 3] := by
  refine ⟨by decide, by decide, by decide⟩

/-- Claim C3 (amended): the forward delta transform satisfies
`out[i] = (in[i] - in[i-1]) mod 256` with `in[-1] = 0` — the difference is
taken from the previous *input* byte — and the inverse is the cumulative
modulo-256 sum seeded with 0, so the pair round-trips across 0/255
wraparound for every byte string. -/
theorem c3_delta_forward_and_roundtrip (d : List Nat) :
    tf_delta d = List.zipWith (fun b p => (((b : Int) - (p : Int)) % 256).toNat) d (0 :: d) ∧
    ((∀ b ∈ d, b < 256) → itf_delta (tf_delta d) = d) := by
  constructor
  · exact tfDeltaAux_zipWith d 0
  · intro hd
    exact itfDeltaAux_tfDeltaAux d 0 (by norm_num) hd

/-- Claim C3 witness: the amended round-trip at the wraparound-exercising
input `[5, 250, 3]`. -/
theorem c3_delta_roundtrip_witness : itf_delta (tf_delta [5, 250, 3]) = [5, 250, 3] :=
  (c3_delta_forward_and_roundtrip [5, 250, 3]).2 (by decide)

/-! ### RLE decoder on malformed input: claim C4 -/

/-- Claim C4 counterexample: the odd-length pair stream `[7]` is decoded
without error — `zip(it, it)` silently discards the trailing unpaired byte
and the decoder returns a (empty) result instead of rejecting. -/
theorem c4_counterexample : ([7] : List Nat).length % 2 = 1 ∧ itf_rle [7] = [] := by
  refine ⟨by decide, by decide⟩

/-- Claim C4 (amended): for every input of odd length, the RLE decoder does
not reject; it silently discards the trailing unpaired byte and returns the
expansion of the complete leading pairs. -/
theorem c4_itf_rle_odd_drops_last :
    ∀ (d : List Nat), d.length % 2 = 1 → itf_rle d = itf_rle d.dropLast
  | [], h => by simp at h
  | [b], _ => by simp [itf_rle]
  | b :: r :: rest, h => by
    have hr : rest.length % 2 = 1 := by
      simp only [List.length_cons] at h
      omega
    have hne : rest ≠ [] := by
      intro he
      rw [he] at hr
      simp at hr
    have hd2 : (b :: r :: rest).dropLast = b :: r :: rest.dropLast := by
      rw [List.dropLast_cons₂, List.dropLast_cons_of_ne_nil hne]
    rw [hd2]
    simp only [itf_rle]
    rw [c4_itf_rle_odd_drops_last rest hr]

/-- Claim C4 witness: the amended statement at the odd-length input `[7]`. -/
theorem c4_odd_witness : itf_rle [7] = itf_rle ([7] : List Nat).dropLast :=
  c4_itf_rle_odd_drops_last [7] (by decide)

/-! ### Short composite payload: claim C5 -/

/-- Claim C5 counterexample: the 3-byte payload `[1, 2, 3]` is shorter than
the 4-byte primary-index prefix, yet `itf_bwt_mtf_rle` returns the empty
byte string successfully instead of failing with a decode error. -/
theorem c5_counterexample : itf_bwt_mtf_rle [1, 2, 3] = some [] := by decide

/-- Claim C5 (amended): for every payload shorter than 4 bytes the inverse
composite transform returns the empty byte string without raising any
error. -/
theorem c5_short_payload_returns_empty (payload : List Nat) (h : payload.length < 4) :
    itf_bwt_mtf_rle payload = some [] := by
  simp [itf_bwt_mtf_rle, h]

/-- Claim C5 witness: the amended statement at the 3-byte payload. -/
theorem c5_short_payload_witness : itf_bwt_mtf_rle [1, 2, 3] = some ([] : List Nat) :=
  c5_short_payload_returns_empty [1, 2, 3] (by decide)

/-! ### Lexicographic order on byte lists -/

theorem cons_lt_cons_iff (a b : Nat) (u v : List Nat) :
    (a :: u) < (b :: v) ↔ a < b ∨ (a = b ∧ u < v) := by
  show List.Lex _ _ _ ↔ _
  constructor
  · intro h
    cases h with
    | rel h => exact Or.inl h
    | cons h => exact Or.inr ⟨rfl, h⟩
  · intro h
    rcases h with h | ⟨he, h⟩
    · exact List.Lex.rel h
    · subst he
      exact List.Lex.cons h

theorem not_lt_nil (x : List Nat) : ¬ x < ([] : List Nat) := by
  intro h
  cases h

theorem dropLast_append_getLast?_toList : ∀ (l : List Nat),
    l.dropLast ++ l.getLast?.toList = l
  | [] => rfl
  | [a] => rfl
  | a :: b :: t => by
    rw [List.dropLast_cons₂, List.getLast?_cons_cons]
    exact congrArg (a :: ·) (dropLast_append_getLast?_toList (b :: t))

theorem lex_dropLast_lt : ∀ (x y : List Nat), x.length = y.length →
    x.getLast? = y.getLast? → (x.dropLast < y.dropLast ↔ x < y)
  | [], [], _, _ => Iff.rfl
  | [], b :: ys, hlen, _ => by simp at hlen
  | a :: xs, [], hlen, _ => by simp at hlen
  | [a], [b], _, hlast => by
    simp only [List.getLast?_singleton, Option.some_inj] at hlast
    subst hlast
    simp only [List.dropLast_single]
    constructor
    · intro h
      exact absurd h (not_lt_nil [])
    · intro h
      exact absurd h (lt_irrefl [a])
  | [a], b :: d :: ys, hlen, _ => by simp at hlen
  | a :: c :: xs, [b], hlen, _ => by simp at hlen
  | a :: c :: xs, b :: d :: ys, hlen, hlast => by
    have hlen' : (c :: xs).length = (d :: ys).length := by simpa using hlen
    have hlast' : (c :: xs).getLast? = (d :: ys).getLast? := by
      rw [List.getLast?_cons_cons] at hlast
      rw [List.getLast?_cons_cons] at hlast
      exact hlast
    have ih := lex_dropLast_lt (c :: xs) (d :: ys) hlen' hlast'
    rw [List.dropLast_cons₂, List.dropLast_cons₂, cons_lt_cons_iff, cons_lt_cons_iff]
    exact or_congr Iff.rfl (and_congr Iff.rfl ih)

theorem lex_dropLast_eq (x y : List Nat) (hlast : x.getLast? = y.getLast?) :
    x.dropLast = y.dropLast ↔ x = y := by
  constructor
  · intro h
    rw [← dropLast_append_getLast?_toList x, ← dropLast_append_getLast?_toList y, h, hlast]
  · intro h
    rw [h]

/-! ### Cyclic index arithmetic -/

theorem bwtPred_lt (n q : Nat) (hn : 0 < n) : bwtPred n q < n :=
  Nat.mod_lt _ hn

theorem bwtSucc_lt (n p : Nat) (hn : 0 < n) : bwtSucc n p < n :=
  Nat.mod_lt _ hn

theorem bwtPred_zero (n : Nat) (hn : 0 < n) : bwtPred n 0 = n - 1 := by
  unfold bwtPred
  rw [Nat.zero_add]
  exact Nat.mod_eq_of_lt (by omega)

theorem bwtPred_of_pos (n q : Nat) (hq1 : 1 ≤ q) (hqn : q < n) : bwtPred n q = q - 1 := by
  unfold bwtPred
  have h1 : q + n - 1 = (q - 1) + n := by omega
  rw [h1, Nat.add_mod_right]
  exact Nat.mod_eq_of_lt (by omega)

theorem bwtSucc_bwtPred (n q : Nat) (hq : q < n) : bwtSucc n (bwtPred n q) = q := by
  rcases Nat.eq_zero_or_pos q with h0 | h1
  · subst h0
    unfold bwtSucc
    rw [bwtPred_zero n (by omega)]
    have : n - 1 + 1 = n := by omega
    rw [this, Nat.mod_self]
  · unfold bwtSucc
    rw [bwtPred_of_pos n q h1 hq]
    have : q - 1 + 1 = q := by omega
    rw [this]
    exact Nat.mod_eq_of_lt hq

theorem bwtPred_bwtSucc (n p : Nat) (hp : p < n) : bwtPred n (bwtSucc n p) = p := by
  unfold bwtSucc
  rcases Nat.lt_or_ge (p + 1) n with hlt | hge
  · rw [Nat.mod_eq_of_lt hlt]
    exact bwtPred_of_pos n (p + 1) (by omega) hlt
  · have hpn : p + 1 = n := by omega
    rw [hpn, Nat.mod_self]
    rw [bwtPred_zero n (by omega)]
    omega

theorem bwtSucc_inj (n p q : Nat) (hp : p < n) (hq : q < n)
    (h : bwtSucc n p = bwtSucc n q) : p = q := by
  have := congrArg (bwtPred n) h
  rwa [bwtPred_bwtSucc n p hp, bwtPred_bwtSucc n q hq] at this

/-! ### countP utilities -/

theorem countP_or_disjoint {A : Type} (p q : A → Bool) :
    ∀ (l : List A), (∀ x ∈ l, ¬ (p x = true ∧ q x = true)) →
    l.countP (fun x => p x || q x) = l.countP p + l.countP q := by
  intro l
  induction l with
  | nil => intro _; rfl
  | cons a t ih =>
    intro hdisj
    have ht := ih (fun x hx => hdisj x (List.mem_cons_of_mem a hx))
    have ha := hdisj a (List.mem_cons_self a t)
    cases hp : p a with
    | true =>
      have hq : q a = false := by
        cases hq : q a with
        | true => exact absurd ⟨hp, hq⟩ ha
        | false => rfl
      rw [List.countP_cons_of_pos _ _ (by rw [hp]; rfl),
        List.countP_cons_of_pos _ _ hp, List.countP_cons_of_neg _ _ (by rw [hq]; exact Bool.false_ne_true), ht]
      omega
    | false =>
      cases hq : q a with
      | true =>
        rw [List.countP_cons_of_pos _ _ (by rw [hp, hq]; rfl),
          List.countP_cons_of_neg _ _ (by rw [hp]; exact Bool.false_ne_true),
          List.countP_cons_of_pos _ _ hq, ht]
        omega
      | false =>
        rw [List.countP_cons_of_neg _ _ (by rw [hp, hq]; exact Bool.false_ne_true),
          List.countP_cons_of_neg _ _ (by rw [hp]; exact Bool.false_ne_true),
          List.countP_cons_of_neg _ _ (by rw [hq]; exact Bool.false_ne_true), ht]

theorem countP_lt_of_witness {A : Type} (p q : A → Bool) :
    ∀ (l : List A), (∀ x ∈ l, p x = true → q x = true) →
    ∀ x0 ∈ l, q x0 = true → p x0 = false → l.countP p < l.countP q := by
  intro l
  induction l with
  | nil => intro _ x0 h0; simp at h0
  | cons a t ih =>
    intro hmono x0 hx0 hq0 hp0
    rcases List.mem_cons.mp hx0 with he | ht
    · rw [he] at hq0 hp0
      rw [List.countP_cons_of_neg _ _ (by rw [hp0]; exact Bool.false_ne_true),
        List.countP_cons_of_pos _ _ hq0]
      have : t.countP p ≤ t.countP q :=
        List.countP_mono_left (fun x hx => hmono x (List.mem_cons_of_mem a hx))
      omega
    · have hrec := ih (fun x hx => hmono x (List.mem_cons_of_mem a hx)) x0 ht hq0 hp0
      cases hp : p a with
      | true =>
        rw [List.countP_cons_of_pos _ _ hp,
          List.countP_cons_of_pos _ _ (hmono a (List.mem_cons_self a t) hp)]
        omega
      | false =>
        rw [List.countP_cons_of_neg _ _ (by rw [hp]; exact Bool.false_ne_true)]
        have : t.countP q ≤ (a :: t).countP q := by
          cases hq : q a with
          | true => rw [List.countP_cons_of_pos _ _ hq]; omega
          | false => rw [List.countP_cons_of_neg _ _ (by rw [hq]; exact Bool.false_ne_true)]
        omega

theorem getD_range_map {A : Type} (d : A) : ∀ (l : List A),
    (List.range l.length).map (fun i => l.getD i d) = l
  | [] => rfl
  | a :: t => by
    rw [List.length_cons, List.range_succ_eq_map, List.map_cons, List.map_map]
    have : ((fun i => (a :: t).getD i d) ∘ Nat.succ) = fun i => t.getD i d := rfl
    rw [this]
    exact congrArg (a :: ·) (getD_range_map d t)

/-! ### Positions in a sorted, duplicate-free list -/

theorem getD_of_lt {A : Type} (l : List A) (d : A) (p : Nat) (h : p < l.length) :
    l.getD p d = l.get ⟨p, h⟩ := by
  rw [List.getD_eq_getElem?_getD, List.getElem?_eq_getElem h]
  rfl

theorem sorted_countP_get {A : Type} [DecidableEq A] {r : A → A → Prop} [DecidableRel r]
    (hanti : ∀ a b : A, r a b → r b a → a = b) :
    ∀ (lst : List A), lst.Sorted r → lst.Nodup →
    ∀ (p : Nat) (hp : p < lst.length),
      lst.countP (fun y => decide (r y (lst.get ⟨p, hp⟩) ∧ y ≠ lst.get ⟨p, hp⟩)) = p := by
  intro lst
  induction lst with
  | nil => intro _ _ p hp; simp at hp
  | cons a tl ih =>
    intro hs hnd p hp
    have hs' := List.sorted_cons.mp hs
    have hnd' := List.nodup_cons.mp hnd
    cases p with
    | zero =>
      show List.countP (fun y => decide (r y a ∧ y ≠ a)) (a :: tl) = 0
      rw [List.countP_cons_of_neg _ _ (by simp)]
      rw [List.countP_eq_zero]
      intro y hy
      simp only [decide_eq_true_eq, not_and]
      intro hry hne
      exact hne (hanti y a hry (hs'.1 y hy))
    | succ p' =>
      have hp' : p' < tl.length := by
        simp only [List.length_cons] at hp
        omega
      show List.countP (fun y => decide (r y (tl.get ⟨p', hp'⟩) ∧ y ≠ tl.get ⟨p', hp'⟩))
        (a :: tl) = p' + 1
      have hmem : tl.get ⟨p', hp'⟩ ∈ tl := List.get_mem tl p' hp'
      have hpa : (fun y => decide (r y (tl.get ⟨p', hp'⟩) ∧ y ≠ tl.get ⟨p', hp'⟩)) a = true := by
        simp only [decide_eq_true_eq]
        exact ⟨hs'.1 _ hmem, fun he => hnd'.1 (he ▸ hmem)⟩
      rw [List.countP_cons_of_pos
        (fun y => decide (r y (tl.get ⟨p', hp'⟩) ∧ y ≠ tl.get ⟨p', hp'⟩)) tl hpa,
        ih hs'.2 hnd'.2 p' hp']

theorem sorted_lt_iff_strict {A : Type} [DecidableEq A] {r : A → A → Prop}
    (hanti : ∀ a b : A, r a b → r b a → a = b)
    (lst : List A) (hs : lst.Sorted r) (hnd : lst.Nodup)
    (p q : Nat) (hp : p < lst.length) (hq : q < lst.length) :
    p < q ↔ (r (lst.get ⟨p, hp⟩) (lst.get ⟨q, hq⟩) ∧ lst.get ⟨p, hp⟩ ≠ lst.get ⟨q, hq⟩) := by
  constructor
  · intro hlt
    refine ⟨hs.rel_get_of_lt (by exact hlt), fun he => ?_⟩
    have := (hnd.get_inj_iff).mp he
    have : p = q := congrArg Fin.val this
    omega
  · rintro ⟨hr, hne⟩
    rcases lt_trichotomy p q with h | h | h
    · exact h
    · exact absurd (by congr 1; exact Fin.ext h) hne
    · have hr2 : r (lst.get ⟨q, hq⟩) (lst.get ⟨p, hp⟩) := hs.rel_get_of_lt (by exact h)
      exact absurd (hanti _ _ hr hr2) hne

/-! ### The sorted rotation order of `bwt_transform` -/

theorem rotRel_total (s : List Nat) : ∀ i j, rotRel s i j ∨ rotRel s j i := by
  intro i j
  rcases lt_trichotomy (rotKey s i) (rotKey s j) with h | h | h
  · exact Or.inl (Or.inl h)
  · rcases Nat.le_total i j with hle | hle
    · exact Or.inl (Or.inr ⟨h, hle⟩)
    · exact Or.inr (Or.inr ⟨h.symm, hle⟩)
  · exact Or.inr (Or.inl h)

theorem rotRel_trans (s : List Nat) : ∀ i j k, rotRel s i j → rotRel s j k → rotRel s i k := by
  intro i j k hij hjk
  rcases hij with h1 | ⟨he1, hle1⟩
  · rcases hjk with h2 | ⟨he2, _⟩
    · exact Or.inl (lt_trans h1 h2)
    · exact Or.inl (he2 ▸ h1)
  · rcases hjk with h2 | ⟨he2, hle2⟩
    · exact Or.inl (he1 ▸ h2)
    · exact Or.inr ⟨he1.trans he2, Nat.le_trans hle1 hle2⟩

theorem rotRel_antisymm (s : List Nat) : ∀ i j, rotRel s i j → rotRel s j i → i = j := by
  intro i j hij hji
  rcases hij with h1 | ⟨he1, hle1⟩
  · rcases hji with h2 | ⟨he2, _⟩
    · exact absurd h2 (lt_asymm h1)
    · exact absurd (he2 ▸ h1) (lt_irrefl _)
  · rcases hji with h2 | ⟨_, hle2⟩
    · exact absurd (he1 ▸ h2) (lt_irrefl _)
    · exact Nat.le_antisymm hle1 hle2

theorem keyLt_iff_rotRel (s : List Nat) (i j : Nat) :
    keyLt s i j ↔ rotRel s i j ∧ i ≠ j := by
  constructor
  · rintro (h | ⟨he, hlt⟩)
    · refine ⟨Or.inl h, fun hij => ?_⟩
      rw [hij] at h
      exact lt_irrefl _ h
    · exact ⟨Or.inr ⟨he, Nat.le_of_lt hlt⟩, by omega⟩
  · rintro ⟨h | ⟨he, hle⟩, hne⟩
    · exact Or.inl h
    · exact Or.inr ⟨he, lt_of_le_of_ne hle hne⟩

theorem bwtSort_perm (s : List Nat) : (bwtSort s).Perm (List.range s.length) :=
  List.perm_insertionSort (rotRel s) (List.range s.length)

theorem bwtSort_length (s : List Nat) : (bwtSort s).length = s.length := by
  rw [(bwtSort_perm s).length_eq, List.length_range]

theorem bwtSort_nodup (s : List Nat) : (bwtSort s).Nodup :=
  ((bwtSort_perm s).nodup_iff).mpr (List.nodup_range _)

theorem mem_bwtSort (s : List Nat) (i : Nat) : i ∈ bwtSort s ↔ i < s.length := by
  rw [(bwtSort_perm s).mem_iff, List.mem_range]

theorem bwtSort_sorted (s : List Nat) : (bwtSort s).Sorted (rotRel s) := by
  haveI : IsTotal Nat (rotRel s) := ⟨rotRel_total s⟩
  haveI : IsTrans Nat (rotRel s) := ⟨rotRel_trans s⟩
  exact List.sorted_insertionSort (rotRel s) (List.range s.length)

/-- Counting characterization of row positions: row `p` of the sorted
rotation order holds the index with exactly `p` strictly smaller keys. -/
theorem bwtSort_row_count (s : List Nat) (p : Nat) (hp : p < s.length) :
    (List.range s.length).countP
      (fun j => decide (keyLt s j ((bwtSort s).getD p 0))) = p := by
  have hp2 : p < (bwtSort s).length := by rw [bwtSort_length]; exact hp
  have hx : (bwtSort s).getD p 0 = (bwtSort s).get ⟨p, hp2⟩ := getD_of_lt _ _ _ hp2
  have hgen := sorted_countP_get (rotRel_antisymm s) (bwtSort s) (bwtSort_sorted s)
    (bwtSort_nodup s) p hp2
  have hperm := (bwtSort_perm s).countP_eq
    (fun y => decide (rotRel s y ((bwtSort s).get ⟨p, hp2⟩) ∧ y ≠ (bwtSort s).get ⟨p, hp2⟩))
  rw [hperm] at hgen
  refine Eq.trans ?_ hgen
  apply List.countP_congr
  intro j _
  simp only [decide_eq_true_eq, hx]
  exact keyLt_iff_rotRel s j _

/-- Rows are ordered exactly as their strict keys. -/
theorem bwtSort_lt_iff (s : List Nat) (p q : Nat) (hp : p < s.length) (hq : q < s.length) :
    p < q ↔ keyLt s ((bwtSort s).getD p 0) ((bwtSort s).getD q 0) := by
  have hp2 : p < (bwtSort s).length := by rw [bwtSort_length]; exact hp
  have hq2 : q < (bwtSort s).length := by rw [bwtSort_length]; exact hq
  have h1 := sorted_lt_iff_strict (rotRel_antisymm s) (bwtSort s) (bwtSort_sorted s)
    (bwtSort_nodup s) p q hp2 hq2
  rw [keyLt_iff_rotRel, getD_of_lt _ _ _ hp2, getD_of_lt _ _ _ hq2]
  exact h1

theorem bwtSort_getD_lt (s : List Nat) (p : Nat) (hp : p < s.length) :
    (bwtSort s).getD p 0 < s.length := by
  have hp2 : p < (bwtSort s).length := by rw [bwtSort_length]; exact hp
  rw [getD_of_lt _ _ _ hp2]
  rw [← mem_bwtSort]
  exact List.get_mem _ _ _

theorem bwtSort_surj (s : List Nat) (i : Nat) (hi : i < s.length) :
    ∃ p, p < s.length ∧ (bwtSort s).getD p 0 = i := by
  have hmem : i ∈ bwtSort s := (mem_bwtSort s i).mpr hi
  obtain ⟨p, hp⟩ := List.get_of_mem hmem
  refine ⟨p.1, lt_of_lt_of_le p.2 (le_of_eq (bwtSort_length s)), ?_⟩
  rw [getD_of_lt _ _ _ p.2]
  exact hp

/-- Reindexing a row count through the sorted order. -/
theorem countP_reindex_bwtSort (s : List Nat) (p : Nat → Bool) :
    (List.range s.length).countP (fun r => p ((bwtSort s).getD r 0)) =
      (List.range s.length).countP p := by
  have h1 : (List.range s.length).countP (fun r => p ((bwtSort s).getD r 0)) =
      ((List.range (bwtSort s).length).map (fun r => (bwtSort s).getD r 0)).countP p := by
    rw [List.countP_map, bwtSort_length]
    rfl
  rw [h1, getD_range_map]
  exact (bwtSort_perm s).countP_eq p

/-! ### Structure of rotations -/

theorem rotKey_length (s : List Nat) (i : Nat) : (rotKey s i).length = s.length := by
  simp only [rotKey, List.length_append, List.length_drop, List.length_take]
  omega

theorem rotKey_zero (s : List Nat) : rotKey s 0 = s := by
  simp [rotKey]

/-- The cyclic-predecessor rotation prepends its first byte to the current
rotation with the last byte removed. -/
theorem rotKey_pred (s : List Nat) (q : Nat) (hq : q < s.length) :
    rotKey s (bwtPred s.length q) =
      s.getD (bwtPred s.length q) 0 :: (rotKey s q).dropLast := by
  have hn : 0 < s.length := by omega
  rcases Nat.eq_zero_or_pos q with h0 | h1
  · subst h0
    rw [bwtPred_zero _ hn, rotKey_zero]
    have hlt : s.length - 1 < s.length := by omega
    show s.drop (s.length - 1) ++ s.take (s.length - 1) = _
    rw [List.drop_eq_getElem_cons hlt, List.drop_length_le (by omega)]
    rw [List.dropLast_eq_take]
    rw [getD_of_lt s 0 _ hlt]
    rfl
  · rw [bwtPred_of_pos _ q h1 hq]
    have hlt : q - 1 < s.length := by omega
    show s.drop (q - 1) ++ s.take (q - 1) = _
    rw [List.drop_eq_getElem_cons hlt]
    have hq1 : q - 1 + 1 = q := by omega
    rw [hq1]
    have htne : s.take q ≠ [] := by
      intro hc
      have := congrArg List.length hc
      simp only [List.length_take, List.length_nil] at this
      omega
    show s[q - 1] :: (s.drop q ++ s.take (q - 1)) = _
    rw [getD_of_lt s 0 _ hlt]
    have hdl : (rotKey s q).dropLast = s.drop q ++ s.take (q - 1) := by
      show (s.drop q ++ s.take q).dropLast = _
      rw [List.dropLast_append_of_ne_nil _ htne]
      congr 1
      rw [List.dropLast_eq_take, List.length_take, List.take_take]
      congr 1
      omega
    rw [hdl]
    rfl

/-- The last byte of rotation `q` is the source byte at the cyclic
predecessor of `q`. -/
theorem rotKey_getLast? (s : List Nat) (q : Nat) (hq : q < s.length) :
    (rotKey s q).getLast? = some (s.getD (bwtPred s.length q) 0) := by
  have hn : 0 < s.length := by omega
  rcases Nat.eq_zero_or_pos q with h0 | h1
  · subst h0
    rw [bwtPred_zero _ hn, rotKey_zero, List.getLast?_eq_getElem?]
    have hlt : s.length - 1 < s.length := by omega
    rw [List.getElem?_eq_getElem hlt, getD_of_lt s 0 _ hlt]
    rfl
  · rw [bwtPred_of_pos _ q h1 hq]
    have htne : s.take q ≠ [] := by
      intro hc
      have := congrArg List.length hc
      simp only [List.length_take, List.length_nil] at this
      omega
    show (s.drop q ++ s.take q).getLast? = _
    rw [List.getLast?_append]
    have hlen : (s.take q).length = q := by
      rw [List.length_take]
      omega
    have hlt : q - 1 < s.length := by omega
    have hlt2 : q - 1 < (s.take q).length := by omega
    rw [List.getLast?_eq_getElem?, hlen, List.getElem?_eq_getElem hlt2]
    have hval : (s.take q)[q - 1] = s.get ⟨q - 1, hlt⟩ := by
      rw [List.getElem_take]
      rfl
    rw [hval, getD_of_lt s 0 _ hlt]
    rfl

/-- Equal rotations have equal cyclic-predecessor rotations. -/
theorem rotKey_pred_congr (s : List Nat) (q q' : Nat) (hq : q < s.length)
    (hq' : q' < s.length) (h : rotKey s q = rotKey s q') :
    rotKey s (bwtPred s.length q) = rotKey s (bwtPred s.length q') := by
  rw [rotKey_pred s q hq, rotKey_pred s q' hq', h]
  have hlast := (rotKey_getLast? s q hq).symm.trans
    ((congrArg List.getLast? h).trans (rotKey_getLast? s q' hq'))
  rw [Option.some_inj.mp hlast]

/-- Rotation `q` is its first byte followed by the successor rotation with
the last byte removed. -/
theorem rotKey_head (s : List Nat) (q : Nat) (hq : q < s.length) :
    rotKey s q = s.getD q 0 :: (rotKey s (bwtSucc s.length q)).dropLast := by
  have hsucc : bwtSucc s.length q < s.length := bwtSucc_lt _ _ (by omega)
  have h := rotKey_pred s (bwtSucc s.length q) hsucc
  rwa [bwtPred_bwtSucc _ q hq] at h

/-! ### Reindexing by the cyclic successor -/

theorem map_bwtSucc_perm (n : Nat) (hn : 0 < n) :
    ((List.range n).map (bwtSucc n)).Perm (List.range n) := by
  obtain ⟨m, rfl⟩ : ∃ m, n = m + 1 := ⟨n - 1, by omega⟩
  rw [List.range_succ, List.map_append]
  have hlast : bwtSucc (m + 1) m = 0 := by
    unfold bwtSucc
    rw [Nat.mod_self]
  have hmap : (List.range m).map (bwtSucc (m + 1)) = (List.range m).map Nat.succ := by
    apply List.map_congr_left
    intro p hp
    have hp' : p < m := List.mem_range.mp hp
    unfold bwtSucc
    exact Nat.mod_eq_of_lt (by omega)
  rw [hmap, List.map_singleton, hlast]
  refine (List.perm_append_singleton 0 _).trans ?_
  rw [← List.range_succ_eq_map, ← List.range_succ]

/-- Reindexing a count over `range n` through the cyclic successor. -/
theorem countP_reindex_bwtSucc (n : Nat) (hn : 0 < n) (f : Nat → Bool) :
    (List.range n).countP (fun p => f (bwtSucc n p)) = (List.range n).countP f := by
  have h1 : (List.range n).countP (fun p => f (bwtSucc n p)) =
      ((List.range n).map (bwtSucc n)).countP f := by
    rw [List.countP_map]
    rfl
  rw [h1]
  exact (map_bwtSucc_perm n hn).countP_eq f

/-! ### The occurrence-rank fold `occAux` -/

theorem occAux_length : ∀ (l : List Nat) (cm : Nat → Nat), (occAux l cm).length = l.length := by
  intro l
  induction l with
  | nil => intro cm; rfl
  | cons b rest ih =>
    intro cm
    simp only [occAux, List.length_cons, ih]

theorem occAux_getD : ∀ (l : List Nat) (cm : Nat → Nat) (r : Nat), r < l.length →
    (occAux l cm).getD r 0 = cm (l.getD r 0) + (l.take (r + 1)).count (l.getD r 0) := by
  intro l
  induction l with
  | nil => intro cm r hr; simp at hr
  | cons b rest ih =>
    intro cm r hr
    cases r with
    | zero =>
      show ((cm b + 1) :: occAux rest _).getD 0 0 = _
      simp [List.count_cons]
    | succ r' =>
      have hr' : r' < rest.length := by
        simp only [List.length_cons] at hr
        omega
      show ((cm b + 1) :: occAux rest _).getD (r' + 1) 0 = _
      have hstep : ((cm b + 1) :: occAux rest
          (fun x => if x = b then cm b + 1 else cm x)).getD (r' + 1) 0 =
          (occAux rest (fun x => if x = b then cm b + 1 else cm x)).getD r' 0 := rfl
      rw [hstep, ih _ r' hr']
      have hx : (b :: rest).getD (r' + 1) 0 = rest.getD r' 0 := rfl
      rw [hx]
      have htake : (b :: rest).take (r' + 1 + 1) = b :: rest.take (r' + 1) := rfl
      rw [htake, List.count_cons]
      by_cases hxb : rest.getD r' 0 = b
      · rw [hxb]
        simp only [if_pos rfl, beq_self_eq_true, if_true]
        omega
      · rw [if_neg hxb, if_neg (by simp only [beq_iff_eq]; exact fun c => hxb c.symm)]
        omega

theorem count_take_countP (x : Nat) : ∀ (l : List Nat) (k : Nat), k ≤ l.length →
    (l.take k).count x = (List.range k).countP (fun q => decide (l.getD q 0 = x)) := by
  intro l k
  induction k with
  | zero => intro _; rfl
  | succ k ih =>
    intro hk
    have hk' : k ≤ l.length := by omega
    have hlt : k < l.length := by omega
    rw [List.take_succ, List.count_append, List.range_succ, List.countP_append, ih hk']
    congr 1
    rw [List.getElem?_eq_getElem hlt]
    show List.count x [l[k]] = List.countP (fun q => decide (l.getD q 0 = x)) [k]
    have hgd : l.getD k 0 = l[k] := getD_of_lt l 0 k hlt
    rw [show ([l[k]] : List Nat) = l[k] :: [] from rfl, List.count_cons,
      show ([k] : List Nat) = k :: [] from rfl, List.countP_cons]
    simp only [List.count_nil, List.countP_nil, Nat.zero_add]
    by_cases hbx : l[k] = x
    · simp [List.getElem?_eq_getElem hlt, hgd, hbx]
    · simp [List.getElem?_eq_getElem hlt, hgd, hbx]

theorem countP_range_restrict (n k : Nat) (hk : k ≤ n) (p : Nat → Bool) :
    (List.range n).countP (fun q => decide (q < k) && p q) = (List.range k).countP p := by
  have hsplit : n = k + (n - k) := by omega
  rw [hsplit, List.range_add, List.countP_append]
  have h2 : (List.countP (fun q => decide (q < k) && p q)
      (List.map (fun x => k + x) (List.range (n - k)))) = 0 := by
    rw [List.countP_eq_zero]
    intro a ha
    obtain ⟨x, _, rfl⟩ := List.mem_map.mp ha
    simp only [Bool.and_eq_true, decide_eq_true_eq]
    intro hc
    omega
  rw [h2, Nat.add_zero]
  apply List.countP_congr
  intro q hq
  have hqk : q < k := List.mem_range.mp hq
  simp [hqk]

/-- The occurrence rank at position `r` counts the positions `q ≤ r`
holding the same byte. -/
theorem occAux_rank (l : List Nat) (r : Nat) (hr : r < l.length) :
    (occAux l (fun _ => 0)).getD r 0 =
      (List.range l.length).countP
        (fun q => decide (q ≤ r ∧ l.getD q 0 = l.getD r 0)) := by
  rw [occAux_getD l _ r hr, Nat.zero_add]
  rw [count_take_countP _ l (r + 1) (by omega)]
  have h1 : (List.range (r + 1)).countP (fun q => decide (l.getD q 0 = l.getD r 0)) =
      (List.range l.length).countP
        (fun q => decide (q < r + 1) && decide (l.getD q 0 = l.getD r 0)) :=
    (countP_range_restrict l.length (r + 1) (by omega) _).symm
  rw [h1]
  apply List.countP_congr
  intro q _
  constructor
  · intro h
    simp only [Bool.and_eq_true, decide_eq_true_eq] at h ⊢
    exact ⟨by omega, h.2⟩
  · intro h
    simp only [Bool.and_eq_true, decide_eq_true_eq] at h ⊢
    exact ⟨by omega, h.2⟩

/-! ### The sorted `(byte, index)` pairs of `bwt_inverse` -/

theorem pairRel_total : ∀ x y : Nat × Nat, pairRel x y ∨ pairRel y x := by
  intro x y
  rcases lt_trichotomy x.1 y.1 with h | h | h
  · exact Or.inl (Or.inl h)
  · rcases Nat.le_total x.2 y.2 with hle | hle
    · exact Or.inl (Or.inr ⟨h, hle⟩)
    · exact Or.inr (Or.inr ⟨h.symm, hle⟩)
  · exact Or.inr (Or.inl h)

theorem pairRel_trans : ∀ x y z : Nat × Nat, pairRel x y → pairRel y z → pairRel x z := by
  intro x y z hxy hyz
  rcases hxy with h1 | ⟨he1, hle1⟩
  · rcases hyz with h2 | ⟨he2, _⟩
    · exact Or.inl (lt_trans h1 h2)
    · exact Or.inl (he2 ▸ h1)
  · rcases hyz with h2 | ⟨he2, hle2⟩
    · exact Or.inl (he1 ▸ h2)
    · exact Or.inr ⟨he1.trans he2, Nat.le_trans hle1 hle2⟩

theorem pairRel_antisymm : ∀ x y : Nat × Nat, pairRel x y → pairRel y x → x = y := by
  intro x y hxy hyx
  rcases hxy with h1 | ⟨he1, hle1⟩
  · rcases hyx with h2 | ⟨he2, _⟩
    · exact absurd h2 (lt_asymm h1)
    · exact absurd (he2 ▸ h1) (lt_irrefl _)
  · rcases hyx with h2 | ⟨_, hle2⟩
    · exact absurd (he1 ▸ h2) (lt_irrefl _)
    · exact Prod.ext he1 (Nat.le_antisymm hle1 hle2)

theorem pairLt_iff_pairRel (x y : Nat × Nat) : pairLt x y ↔ pairRel x y ∧ x ≠ y := by
  constructor
  · rintro (h | ⟨he, hlt⟩)
    · refine ⟨Or.inl h, fun hxy => ?_⟩
      rw [hxy] at h
      exact lt_irrefl _ h
    · refine ⟨Or.inr ⟨he, Nat.le_of_lt hlt⟩, fun hxy => ?_⟩
      rw [hxy] at hlt
      exact lt_irrefl _ hlt
  · rintro ⟨h | ⟨he, hle⟩, hne⟩
    · exact Or.inl h
    · refine Or.inr ⟨he, lt_of_le_of_ne hle fun h2 => hne (Prod.ext he h2)⟩

theorem pairLt_irrefl (x : Nat × Nat) : ¬ pairLt x x := by
  rintro (h | ⟨_, h⟩) <;> exact lt_irrefl _ h

/-- The unsorted pair list `[(b, i) for i, b in enumerate(last)]` is the
image of `range n` under `j ↦ (last[j], j)`. -/
theorem enum_pairs_eq_map : ∀ (L : List Nat),
    L.enum.map (fun e => (e.2, e.1)) =
      (List.range L.length).map (fun j => (L.getD j 0, j)) := by
  intro L
  apply List.ext_get
  · simp
  · intro j h1 h2
    simp only [List.length_map, List.enum_length] at h1
    have hj : j < L.length := h1
    rw [List.get_map, List.get_map]
    have he : L.enum.get ⟨j, by simpa using hj⟩ = (j, L[j]) := by
      have := List.getElem_enum L j (by simpa using hj)
      simpa using this
    rw [he]
    have hr : (List.range L.length).get ⟨j, by simpa using hj⟩ = j := by
      simpa using List.get_range _
    rw [hr]
    show (L[j], j) = (L.getD j 0, j)
    rw [getD_of_lt L 0 j hj]
    rfl

theorem pairs_length (L : List Nat) :
    (L.enum.map (fun e => (e.2, e.1))).length = L.length := by
  simp

theorem pairs_nodup (L : List Nat) : (L.enum.map (fun e => (e.2, e.1))).Nodup := by
  have hsnd : (L.enum.map (fun e => (e.2, e.1))).map Prod.snd = List.range L.length := by
    rw [List.map_map]
    exact List.enum_map_fst L
  have : ((L.enum.map (fun e => (e.2, e.1))).map Prod.snd).Nodup := by
    rw [hsnd]
    exact List.nodup_range _
  exact List.Nodup.of_map _ this

theorem firstCol_perm (L : List Nat) :
    (firstCol L).Perm (L.enum.map (fun e => (e.2, e.1))) :=
  List.perm_insertionSort pairRel _

theorem firstCol_length (L : List Nat) : (firstCol L).length = L.length := by
  rw [(firstCol_perm L).length_eq]
  exact pairs_length L

theorem firstCol_nodup (L : List Nat) : (firstCol L).Nodup :=
  ((firstCol_perm L).nodup_iff).mpr (pairs_nodup L)

theorem firstCol_sorted (L : List Nat) : (firstCol L).Sorted pairRel := by
  haveI : IsTotal (Nat × Nat) pairRel := ⟨pairRel_total⟩
  haveI : IsTrans (Nat × Nat) pairRel := ⟨fun a b c => pairRel_trans a b c⟩
  exact List.sorted_insertionSort pairRel _

theorem firstCol_mem_shape (L : List Nat) (x : Nat × Nat) (hx : x ∈ firstCol L) :
    x.2 < L.length ∧ x = (L.getD x.2 0, x.2) := by
  have hx2 : x ∈ L.enum.map (fun e => (e.2, e.1)) := (firstCol_perm L).mem_iff.mp hx
  rw [enum_pairs_eq_map] at hx2
  obtain ⟨j, hj, rfl⟩ := List.mem_map.mp hx2
  exact ⟨List.mem_range.mp hj, rfl⟩

/-- The position of a pair in the sorted first column counts the pairs
strictly below it. -/
theorem firstCol_pos_count (L : List Nat) (p : Nat) (hp : p < (firstCol L).length) :
    (List.range L.length).countP
      (fun j => decide (pairLt (L.getD j 0, j) ((firstCol L).get ⟨p, hp⟩))) = p := by
  have hgen := sorted_countP_get pairRel_antisymm (firstCol L) (firstCol_sorted L)
    (firstCol_nodup L) p hp
  have hperm := (firstCol_perm L).countP_eq
    (fun y => decide (pairRel y ((firstCol L).get ⟨p, hp⟩) ∧ y ≠ (firstCol L).get ⟨p, hp⟩))
  rw [hperm] at hgen
  have hmap : (L.enum.map (fun e => (e.2, e.1))).countP
      (fun y => decide (pairRel y ((firstCol L).get ⟨p, hp⟩) ∧ y ≠ (firstCol L).get ⟨p, hp⟩)) =
      (List.range L.length).countP
        (fun j => decide (pairRel (L.getD j 0, j) ((firstCol L).get ⟨p, hp⟩) ∧
          (L.getD j 0, j) ≠ (firstCol L).get ⟨p, hp⟩)) := by
    rw [enum_pairs_eq_map, List.countP_map]
    rfl
  rw [hmap] at hgen
  refine Eq.trans ?_ hgen
  apply List.countP_congr
  intro j _
  simp only [decide_eq_true_eq]
  exact pairLt_iff_pairRel _ _

theorem firstCol_lt_iff (L : List Nat) (p q : Nat) (hp : p < (firstCol L).length)
    (hq : q < (firstCol L).length) :
    p < q ↔ pairLt ((firstCol L).get ⟨p, hp⟩) ((firstCol L).get ⟨q, hq⟩) := by
  rw [pairLt_iff_pairRel]
  exact sorted_lt_iff_strict pairRel_antisymm (firstCol L) (firstCol_sorted L)
    (firstCol_nodup L) p q hp hq

/-! ### The `LF` table equals the pair ranks -/

theorem findPos_eq_some : ∀ (lst : List ((Nat × Nat) × Nat)) (key : Nat × Nat) (p : Nat)
    (hp : p < lst.length),
    ((lst.get ⟨p, hp⟩).1.1, (lst.get ⟨p, hp⟩).2) = key →
    (∀ q (hq : q < p),
      ((lst.get ⟨q, by omega⟩).1.1, (lst.get ⟨q, by omega⟩).2) ≠ key) →
    findPos lst key = some p := by
  intro lst
  induction lst with
  | nil => intro key p hp; simp at hp
  | cons e rest ih =>
    intro key p hp hmatch hbefore
    cases p with
    | zero =>
      have he : (e.1.1, e.2) = key := hmatch
      simp only [findPos, if_pos he]
    | succ p' =>
      have hne : (e.1.1, e.2) ≠ key := hbefore 0 (Nat.succ_pos p')
      have hp' : p' < rest.length := by
        simp only [List.length_cons] at hp
        omega
      have hmatch' : ((rest.get ⟨p', hp'⟩).1.1, (rest.get ⟨p', hp'⟩).2) = key := hmatch
      have hbefore' : ∀ q (hq : q < p'),
          ((rest.get ⟨q, by omega⟩).1.1, (rest.get ⟨q, by omega⟩).2) ≠ key :=
        fun q hq => hbefore (q + 1) (by omega)
      simp only [findPos, if_neg hne, ih key p' hp' hmatch' hbefore', Option.map_some']

theorem mapOpt_eq_some_map (g : Nat → Nat) : ∀ (lst : List Nat) (f : Nat → Option Nat),
    (∀ r ∈ lst, f r = some (g r)) → mapOpt lst f = some (lst.map g) := by
  intro lst
  induction lst with
  | nil => intro f _; rfl
  | cons r rest ih =>
    intro f hf
    simp only [mapOpt, hf r (List.mem_cons_self r rest),
      ih f (fun x hx => hf x (List.mem_cons_of_mem r hx)), Option.map_some', List.map_cons]

theorem getD_map_range (n : Nat) (f : Nat → Nat) (r : Nat) (hr : r < n) :
    ((List.range n).map f).getD r 0 = f r := by
  have h1 : r < ((List.range n).map f).length := by simpa using hr
  rw [getD_of_lt _ _ _ h1, List.get_map]
  congr 1
  simpa using List.get_range _

theorem lfRank_lt (L : List Nat) (r : Nat) (hr : r < L.length) : lfRank L r < L.length := by
  unfold lfRank
  have hle : (List.range L.length).countP
      (fun j => decide (pairLt (L.getD j 0, j) (L.getD r 0, r))) ≤ L.length := by
    have := List.countP_le_length
      (p := fun j => decide (pairLt (L.getD j 0, j) (L.getD r 0, r)))
      (l := List.range L.length)
    simpa using this
  rcases Nat.lt_or_ge ((List.range L.length).countP
      (fun j => decide (pairLt (L.getD j 0, j) (L.getD r 0, r)))) L.length with h | h
  · exact h
  · exfalso
    have heq : (List.range L.length).countP
        (fun j => decide (pairLt (L.getD j 0, j) (L.getD r 0, r))) =
        (List.range L.length).length := by
      rw [List.length_range]
      omega
    have hall := List.countP_eq_length.mp heq
    have := hall r (List.mem_range.mpr hr)
    simp only [decide_eq_true_eq] at this
    exact pairLt_irrefl _ this

/-- The first-column byte list at a position. -/
theorem fpb_getD (L : List Nat) (p : Nat) (hp : p < (firstCol L).length) :
    ((firstCol L).map Prod.fst).getD p 0 = ((firstCol L).get ⟨p, hp⟩).1 := by
  have h1 : p < ((firstCol L).map Prod.fst).length := by simpa using hp
  rw [getD_of_lt _ _ _ h1, List.get_map]

/-- Reindexing a count over positions of the sorted first column by the
second (index) component of its entries. -/
theorem countP_reindex_firstCol (L : List Nat) (P : Nat → Bool) :
    (List.range (firstCol L).length).countP
      (fun q => P (((firstCol L).getD q (0, 0)).2)) =
    (List.range L.length).countP P := by
  have h1 : (List.range (firstCol L).length).countP
      (fun q => P (((firstCol L).getD q (0, 0)).2)) =
      (((List.range (firstCol L).length).map (fun q => (firstCol L).getD q (0, 0))).map
        Prod.snd).countP P := by
    rw [List.map_map, List.countP_map]
    rfl
  rw [h1, getD_range_map]
  have h2 : ((firstCol L).map Prod.snd).Perm
      ((L.enum.map (fun e => (e.2, e.1))).map Prod.snd) := (firstCol_perm L).map _
  rw [h2.countP_eq]
  have h3 : (L.enum.map (fun e => (e.2, e.1))).map Prod.snd = List.range L.length := by
    rw [enum_pairs_eq_map, List.map_map]
    have : (Prod.snd ∘ fun j => (L.getD j 0, j)) = id := rfl
    rw [this, List.map_id]
  rw [h3]

/-- The occurrence rank stored with a pair in the sorted first column
equals the occurrence rank of the corresponding position of `last`. -/
theorem ofc_eq_ol (L : List Nat) (r : Nat) (hr : r < L.length) (p : Nat)
    (hp : p < (firstCol L).length)
    (hget : (firstCol L).get ⟨p, hp⟩ = (L.getD r 0, r)) :
    (occAux ((firstCol L).map Prod.fst) (fun _ => 0)).getD p 0 =
      (occAux L (fun _ => 0)).getD r 0 := by
  have hfpb : ((firstCol L).map Prod.fst).length = L.length := by
    simp [firstCol_length]
  have hp' : p < ((firstCol L).map Prod.fst).length := by
    simpa using hp
  rw [occAux_rank _ p hp', occAux_rank L r hr]
  have hbp : ((firstCol L).map Prod.fst).getD p 0 = L.getD r 0 := by
    rw [fpb_getD L p hp, hget]
  rw [hbp]
  have hcong : ∀ q, q < (firstCol L).length →
      ((decide (q ≤ p ∧ ((firstCol L).map Prod.fst).getD q 0 = L.getD r 0)) =
        (fun j => decide (j ≤ r ∧ L.getD j 0 = L.getD r 0)) (((firstCol L).getD q (0, 0)).2)) := by
    intro q hq
    have hmemq := firstCol_mem_shape L ((firstCol L).get ⟨q, hq⟩)
      (List.get_mem _ _ _)
    have hgdq : (firstCol L).getD q (0, 0) = (firstCol L).get ⟨q, hq⟩ := getD_of_lt _ _ _ hq
    have hfq : ((firstCol L).map Prod.fst).getD q 0 = ((firstCol L).get ⟨q, hq⟩).1 :=
      fpb_getD L q hq
    have hfst : ((firstCol L).get ⟨q, hq⟩).1 =
        L.getD ((firstCol L).get ⟨q, hq⟩).2 0 := by
      conv_lhs => rw [hmemq.2]
    rw [hgdq, hfq]
    apply bool_eq_of_iff
    simp only [decide_eq_true_eq]
    by_cases hbq : ((firstCol L).get ⟨q, hq⟩).1 = L.getD r 0
    · have hiff : q ≤ p ↔ ((firstCol L).get ⟨q, hq⟩).2 ≤ r := by
        constructor
        · intro hqp
          rcases Nat.lt_or_ge q p with hqp2 | hqp2
          · have hplt := (firstCol_lt_iff L q p hq hp).mp hqp2
            rw [hget] at hplt
            rcases hplt with h1 | ⟨_, h2⟩
            · rw [hbq] at h1
              exact absurd h1 (lt_irrefl _)
            · exact Nat.le_of_lt h2
          · have hqp3 : q = p := by omega
            have : (firstCol L).get ⟨q, hq⟩ = (L.getD r 0, r) := by
              rw [← hget]
              congr 1
              exact Fin.ext hqp3
            rw [this]
        · intro hsr
          rcases Nat.lt_or_ge ((firstCol L).get ⟨q, hq⟩).2 r with h2 | h2
          · have : pairLt ((firstCol L).get ⟨q, hq⟩) ((firstCol L).get ⟨p, hp⟩) := by
              rw [hget]
              exact Or.inr ⟨hbq, h2⟩
            exact Nat.le_of_lt ((firstCol_lt_iff L q p hq hp).mpr this)
          · have hseq : ((firstCol L).get ⟨q, hq⟩).2 = r := by omega
            have : (firstCol L).get ⟨q, hq⟩ = (firstCol L).get ⟨p, hp⟩ := by
              rw [hget, ← hbq, ← hseq]
            have hqp := (firstCol_nodup L).get_inj_iff.mp this
            have : q = p := congrArg Fin.val hqp
            omega
      constructor
      · rintro ⟨hqp, hfb⟩
        refine ⟨hiff.mp hqp, ?_⟩
        rw [← hfst]
        exact hbq
      · rintro ⟨hsr, hLb⟩
        exact ⟨hiff.mpr hsr, hbq⟩
    · constructor
      · rintro ⟨_, hfb⟩
        exact absurd hfb hbq
      · rintro ⟨hsr, hLb⟩
        exfalso
        apply hbq
        rw [hfst]
        exact hLb
  have hstep : (List.range ((firstCol L).map Prod.fst).length).countP
      (fun q => decide (q ≤ p ∧ ((firstCol L).map Prod.fst).getD q 0 = L.getD r 0)) =
      (List.range (firstCol L).length).countP
        (fun q => (fun j => decide (j ≤ r ∧ L.getD j 0 = L.getD r 0))
          (((firstCol L).getD q (0, 0)).2)) := by
    rw [show ((firstCol L).map Prod.fst).length = (firstCol L).length by simp]
    apply List.countP_congr
    intro q hq
    rw [hcong q (List.mem_range.mp hq)]
  rw [hstep]
  exact countP_reindex_firstCol L (fun j => decide (j ≤ r ∧ L.getD j 0 = L.getD r 0))

/-- Among first-column positions holding the same byte, the stored
occurrence rank is strictly increasing. -/
theorem ofc_strict_mono_on_byte (L : List Nat) (p q : Nat)
    (hp : p < (firstCol L).length) (hq : q < (firstCol L).length) (hqp : q < p)
    (hbyte : ((firstCol L).get ⟨q, hq⟩).1 = ((firstCol L).get ⟨p, hp⟩).1) :
    (occAux ((firstCol L).map Prod.fst) (fun _ => 0)).getD q 0 <
      (occAux ((firstCol L).map Prod.fst) (fun _ => 0)).getD p 0 := by
  have hq' : q < ((firstCol L).map Prod.fst).length := by simpa using hq
  have hp' : p < ((firstCol L).map Prod.fst).length := by simpa using hp
  rw [occAux_rank _ q hq', occAux_rank _ p hp']
  have hbq : ((firstCol L).map Prod.fst).getD q 0 = ((firstCol L).map Prod.fst).getD p 0 := by
    rw [fpb_getD L q hq, fpb_getD L p hp, hbyte]
  rw [hbq]
  apply countP_lt_of_witness _ _ _ ?_ p ?_ ?_ ?_
  · intro x _ hx
    simp only [decide_eq_true_eq] at hx ⊢
    exact ⟨by omega, hx.2⟩
  · exact List.mem_range.mpr hp'
  · simp
  · simp only [decide_eq_false_iff_not, not_and]
    intro hc
    omega

/-- Key lemma: the `pos_first` lookup performed for row `r` succeeds and
returns exactly the pair rank `lfRank L r`. -/
theorem lfRank_findPos (L : List Nat) (r : Nat) (hr : r < L.length) :
    findPos ((firstCol L).zip (occAux ((firstCol L).map Prod.fst) (fun _ => 0)))
      (L.getD r 0, (occAux L (fun _ => 0)).getD r 0) = some (lfRank L r) := by
  have hmem0 : ((L.getD r 0, r) : Nat × Nat) ∈ L.enum.map (fun e => (e.2, e.1)) := by
    rw [enum_pairs_eq_map]
    exact List.mem_map.mpr ⟨r, List.mem_range.mpr hr, rfl⟩
  have hmem : ((L.getD r 0, r) : Nat × Nat) ∈ firstCol L := (firstCol_perm L).mem_iff.mpr hmem0
  obtain ⟨pf, hpf⟩ := List.get_of_mem hmem
  have hrank : lfRank L r = pf.1 := by
    have hpos := firstCol_pos_count L pf.1 pf.2
    unfold lfRank
    refine Eq.trans ?_ hpos
    apply List.countP_congr
    intro j _
    have : (firstCol L).get ⟨pf.1, pf.2⟩ = (L.getD r 0, r) := hpf
    rw [this]
  have hofc_len : (occAux ((firstCol L).map Prod.fst) (fun _ => 0)).length =
      (firstCol L).length := by
    rw [occAux_length, List.length_map]
  have hzip_len : ((firstCol L).zip
      (occAux ((firstCol L).map Prod.fst) (fun _ => 0))).length = (firstCol L).length := by
    rw [List.length_zip, hofc_len, Nat.min_self]
  have hpz : pf.1 < ((firstCol L).zip
      (occAux ((firstCol L).map Prod.fst) (fun _ => 0))).length := by
    rw [hzip_len]
    exact pf.2
  have hzget : ∀ (i : Nat) (h : i < ((firstCol L).zip
      (occAux ((firstCol L).map Prod.fst) (fun _ => 0))).length),
      ((firstCol L).zip (occAux ((firstCol L).map Prod.fst) (fun _ => 0))).get ⟨i, h⟩ =
        ((firstCol L).get ⟨i, by rw [hzip_len] at h; exact h⟩,
          (occAux ((firstCol L).map Prod.fst) (fun _ => 0)).get
            ⟨i, by rw [hzip_len] at h; rw [hofc_len]; exact h⟩) := by
    intro i h
    have h1 : i < (firstCol L).length := by rw [hzip_len] at h; exact h
    have h2 : i < (occAux ((firstCol L).map Prod.fst) (fun _ => 0)).length := by
      rw [hofc_len]
      exact h1
    show ((firstCol L).zip _)[i] = _
    rw [List.getElem_zip]
    rfl
  have hofc_get : ∀ (i : Nat) (h : i < (occAux ((firstCol L).map Prod.fst)
      (fun _ => 0)).length),
      (occAux ((firstCol L).map Prod.fst) (fun _ => 0)).get ⟨i, h⟩ =
        (occAux ((firstCol L).map Prod.fst) (fun _ => 0)).getD i 0 :=
    fun i h => (getD_of_lt _ _ _ h).symm
  rw [hrank]
  apply findPos_eq_some
  · rw [hzget pf.1 hpz]
    have hfst : ((firstCol L).get ⟨pf.1, pf.2⟩).1 = L.getD r 0 := by
      have : (firstCol L).get ⟨pf.1, pf.2⟩ = (L.getD r 0, r) := hpf
      rw [this]
    have hsnd := ofc_eq_ol L r hr pf.1 pf.2 hpf
    rw [hofc_get]
    simp only
    rw [hfst, hsnd]
  · intro q hq
    rw [hzget q (by omega)]
    have hqf : q < (firstCol L).length := by
      have := hpz
      rw [hzip_len] at this
      omega
    simp only
    intro hcontra
    have hfst_eq : ((firstCol L).get ⟨q, hqf⟩).1 = L.getD r 0 :=
      congrArg Prod.fst hcontra
    have hsnd_eq : (occAux ((firstCol L).map Prod.fst) (fun _ => 0)).get
        ⟨q, by rw [hofc_len]; exact hqf⟩ = (occAux L (fun _ => 0)).getD r 0 :=
      congrArg Prod.snd hcontra
    have hbyte : ((firstCol L).get ⟨q, hqf⟩).1 = ((firstCol L).get ⟨pf.1, pf.2⟩).1 := by
      rw [hfst_eq]
      have : (firstCol L).get ⟨pf.1, pf.2⟩ = (L.getD r 0, r) := hpf
      rw [this]
    have hlt := ofc_strict_mono_on_byte L pf.1 q pf.2 hqf hq hbyte
    have hofc_p := ofc_eq_ol L r hr pf.1 pf.2 hpf
    rw [hofc_get] at hsnd_eq
    rw [getD_of_lt _ 0 q (by rw [hofc_len]; exact hqf)] at hlt
    rw [hofc_get] at hlt
    rw [hsnd_eq, hofc_p] at hlt
    exact lt_irrefl _ hlt

/-- The `LF` list always builds successfully and lists the pair ranks. -/
theorem lfList_eq (L : List Nat) :
    lfList L = some ((List.range L.length).map (lfRank L)) := by
  unfold lfList
  exact mapOpt_eq_some_map (lfRank L) (List.range L.length) _
    (fun r hrmem => lfRank_findPos L r (List.mem_range.mp hrmem))

/-! ### Sorted rows form contiguous blocks of equal rotations -/

/-- For a predicate downward closed on `range n`, membership is equivalent
to lying below the count. -/
theorem countP_range_iff_lt (n : Nat) (P : Nat → Bool)
    (hdc : ∀ t t', t' ≤ t → t < n → P t = true → P t' = true) :
    ∀ t, t < n → (P t = true ↔ t < (List.range n).countP P) := by
  intro t ht
  constructor
  · intro hPt
    have hsplit : n = (t + 1) + (n - t - 1) := by omega
    have hcount : (List.range n).countP P =
        (List.range (t + 1)).countP P +
          ((List.range (n - t - 1)).map (fun x => (t + 1) + x)).countP P := by
      conv_lhs => rw [hsplit]
      rw [List.range_add, List.countP_append]
    have hfull : (List.range (t + 1)).countP P = t + 1 := by
      have hlen : (List.range (t + 1)).countP P = (List.range (t + 1)).length := by
        apply List.countP_eq_length.mpr
        intro a ha
        have haa : a ≤ t := Nat.lt_succ_iff.mp (List.mem_range.mp ha)
        exact hdc t a haa ht hPt
      rw [hlen, List.length_range]
    omega
  · intro hlt
    by_contra hPf
    have hPt : P t = false := by
      cases hP : P t with
      | true => exact absurd hP hPf
      | false => rfl
    have hafter : ∀ t', t ≤ t' → t' < n → P t' = false := by
      intro t' hle hlt'
      cases hP : P t' with
      | true => exact absurd (hdc t' t hle hlt' hP) (by rw [hPt]; exact Bool.false_ne_true)
      | false => rfl
    have hsplit : n = t + (n - t) := by omega
    have hcount : (List.range n).countP P =
        (List.range t).countP P +
          ((List.range (n - t)).map (fun x => t + x)).countP P := by
      conv_lhs => rw [hsplit]
      rw [List.range_add, List.countP_append]
    have hz : ((List.range (n - t)).map (fun x => t + x)).countP P = 0 := by
      rw [List.countP_eq_zero]
      intro a ha
      obtain ⟨x, hx, rfl⟩ := List.mem_map.mp ha
      have hx' : x < n - t := List.mem_range.mp hx
      rw [hafter (t + x) (by omega) (by omega)]
      exact Bool.false_ne_true
    have hle : (List.range t).countP P ≤ t := by
      have := List.countP_le_length (p := P) (l := List.range t)
      simpa using this
    omega

/-- The rows whose rotation is lexicographically below `w` form an initial
segment; the rows with rotation exactly `w` follow contiguously. -/
theorem bwt_block (s : List Nat) (w : List Nat) (t : Nat) (ht : t < s.length)
    (hA : (List.range s.length).countP (fun j => decide (rotKey s j < w)) ≤ t)
    (hAm : t < (List.range s.length).countP
      (fun j => decide (rotKey s j < w) || decide (rotKey s j = w))) :
    rotKey s ((bwtSort s).getD t 0) = w := by
  have hrows1 : (List.range s.length).countP
      (fun r => decide (rotKey s ((bwtSort s).getD r 0) < w)) =
      (List.range s.length).countP (fun j => decide (rotKey s j < w)) :=
    countP_reindex_bwtSort s (fun j => decide (rotKey s j < w))
  have hrows2 : (List.range s.length).countP
      (fun r => decide (rotKey s ((bwtSort s).getD r 0) < w) ||
        decide (rotKey s ((bwtSort s).getD r 0) = w)) =
      (List.range s.length).countP
        (fun j => decide (rotKey s j < w) || decide (rotKey s j = w)) :=
    countP_reindex_bwtSort s (fun j => decide (rotKey s j < w) || decide (rotKey s j = w))
  have hvmono : ∀ t1 t2, t2 ≤ t1 → t1 < s.length →
      (rotKey s ((bwtSort s).getD t1 0) < w ∨ rotKey s ((bwtSort s).getD t1 0) = w) →
      (rotKey s ((bwtSort s).getD t2 0) ≤ rotKey s ((bwtSort s).getD t1 0)) := by
    intro t1 t2 hle hlt _
    rcases Nat.lt_or_ge t2 t1 with h2 | h2
    · have hk := (bwtSort_lt_iff s t2 t1 (by omega) hlt).mp h2
      rcases hk with hk | ⟨hk, _⟩
      · exact le_of_lt hk
      · exact le_of_eq hk
    · have : t2 = t1 := by omega
      rw [this]
  have hdc1 : ∀ t1 t2, t2 ≤ t1 → t1 < s.length →
      (fun r => decide (rotKey s ((bwtSort s).getD r 0) < w)) t1 = true →
      (fun r => decide (rotKey s ((bwtSort s).getD r 0) < w)) t2 = true := by
    intro t1 t2 hle hlt h1
    simp only [decide_eq_true_eq] at h1 ⊢
    exact lt_of_le_of_lt (hvmono t1 t2 hle hlt (Or.inl h1)) h1
  have hdc2 : ∀ t1 t2, t2 ≤ t1 → t1 < s.length →
      (fun r => decide (rotKey s ((bwtSort s).getD r 0) < w) ||
        decide (rotKey s ((bwtSort s).getD r 0) = w)) t1 = true →
      (fun r => decide (rotKey s ((bwtSort s).getD r 0) < w) ||
        decide (rotKey s ((bwtSort s).getD r 0) = w)) t2 = true := by
    intro t1 t2 hle hlt h1
    simp only [Bool.or_eq_true, decide_eq_true_eq] at h1 ⊢
    have hle2 := hvmono t1 t2 hle hlt h1
    rcases h1 with h1 | h1
    · rcases lt_or_eq_of_le (lt_of_le_of_lt hle2 h1).le with h3 | h3
      · exact Or.inl h3
      · exact Or.inr h3
    · rw [h1] at hle2
      rcases lt_or_eq_of_le hle2 with h3 | h3
      · exact Or.inl h3
      · exact Or.inr h3
  have hnot1 : ¬ ((fun r => decide (rotKey s ((bwtSort s).getD r 0) < w)) t = true) := by
    intro hc
    have := (countP_range_iff_lt s.length _ hdc1 t ht).mp hc
    rw [hrows1] at this
    omega
  have h2 : ((fun r => decide (rotKey s ((bwtSort s).getD r 0) < w) ||
      decide (rotKey s ((bwtSort s).getD r 0) = w)) t = true) := by
    apply (countP_range_iff_lt s.length _ hdc2 t ht).mpr
    rw [hrows2]
    exact hAm
  simp only [Bool.or_eq_true, decide_eq_true_eq] at hnot1 h2
  rcases h2 with h2 | h2
  · exact absurd h2 hnot1
  · exact h2

/-! ### Head analysis of rotation comparisons -/

theorem rot_lt_pred_iff (s : List Nat) (p i : Nat) (hp : p < s.length) (hi : i < s.length) :
    rotKey s p < rotKey s (bwtPred s.length i) ↔
      (s.getD p 0 < s.getD (bwtPred s.length i) 0 ∨
        (s.getD p 0 = s.getD (bwtPred s.length i) 0 ∧
          rotKey s (bwtSucc s.length p) < rotKey s i)) := by
  have hn : 0 < s.length := by omega
  have hpred : bwtPred s.length i < s.length := bwtPred_lt _ _ hn
  have h1 := rotKey_head s p hp
  have h2 := rotKey_head s (bwtPred s.length i) hpred
  rw [bwtSucc_bwtPred s.length i hi] at h2
  rw [h1, h2, cons_lt_cons_iff]
  apply or_congr Iff.rfl
  apply and_congr_right
  intro hb
  apply lex_dropLast_lt
  · rw [rotKey_length, rotKey_length]
  · rw [rotKey_getLast? s (bwtSucc s.length p) (bwtSucc_lt _ _ hn),
      rotKey_getLast? s i hi, bwtPred_bwtSucc s.length p hp, hb]

theorem rot_eq_pred_iff (s : List Nat) (p i : Nat) (hp : p < s.length) (hi : i < s.length) :
    rotKey s p = rotKey s (bwtPred s.length i) ↔
      (s.getD p 0 = s.getD (bwtPred s.length i) 0 ∧
        rotKey s (bwtSucc s.length p) = rotKey s i) := by
  have hn : 0 < s.length := by omega
  have hpred : bwtPred s.length i < s.length := bwtPred_lt _ _ hn
  have h1 := rotKey_head s p hp
  have h2 := rotKey_head s (bwtPred s.length i) hpred
  rw [bwtSucc_bwtPred s.length i hi] at h2
  rw [h1, h2, List.cons.injEq]
  apply and_congr_right
  intro hb
  apply lex_dropLast_eq
  rw [rotKey_getLast? s (bwtSucc s.length p) (bwtSucc_lt _ _ hn),
    rotKey_getLast? s i hi, bwtPred_bwtSucc s.length p hp, hb]

/-- Entries of the last column are the source bytes at the cyclic
predecessors of the sorted rotation indices. -/
theorem lastColByte_eq_pred (s : List Nat) (i : Nat) (hi : i < s.length) :
    lastColByte s i = s.getD (bwtPred s.length i) 0 := by
  have hn : 0 < s.length := by omega
  unfold lastColByte
  rcases Nat.eq_zero_or_pos i with h0 | h1
  · subst h0
    rw [if_pos rfl, bwtPred_zero _ hn]
  · rw [if_neg (by omega), bwtPred_of_pos _ i h1 hi]

theorem lastCol_getD (s : List Nat) (r : Nat) (hr : r < s.length) :
    ((bwtSort s).map (lastColByte s)).getD r 0 =
      s.getD (bwtPred s.length ((bwtSort s).getD r 0)) 0 := by
  have hr2 : r < (bwtSort s).length := by rw [bwtSort_length]; exact hr
  have h1 : r < ((bwtSort s).map (lastColByte s)).length := by simpa using hr2
  rw [getD_of_lt _ _ _ h1, List.get_map]
  have hgd : (bwtSort s).getD r 0 = (bwtSort s).get ⟨r, hr2⟩ := getD_of_lt _ _ _ hr2
  rw [hgd]
  apply lastColByte_eq_pred
  rw [← mem_bwtSort]
  exact List.get_mem _ _ _

/-- The LF step: the row computed by `LF[r]` holds a rotation equal (as a
string) to the cyclic predecessor of row `r`'s rotation — even when
rotations tie. -/
theorem lf_step (s : List Nat) (hn : 0 < s.length) (r : Nat) (hr : r < s.length) :
    lfRank ((bwtSort s).map (lastColByte s)) r < s.length ∧
    rotKey s ((bwtSort s).getD (lfRank ((bwtSort s).map (lastColByte s)) r) 0) =
      rotKey s (bwtPred s.length ((bwtSort s).getD r 0)) := by
  have hLlen : ((bwtSort s).map (lastColByte s)).length = s.length := by
    rw [List.length_map, bwtSort_length]
  have hrank_lt : lfRank ((bwtSort s).map (lastColByte s)) r < s.length := by
    have h := lfRank_lt ((bwtSort s).map (lastColByte s)) r (by rw [hLlen]; exact hr)
    rwa [hLlen] at h
  refine ⟨hrank_lt, ?_⟩
  have hi : (bwtSort s).getD r 0 < s.length := bwtSort_getD_lt s r hr
  have hpred : bwtPred s.length ((bwtSort s).getD r 0) < s.length := bwtPred_lt _ _ hn
  have hLr : ((bwtSort s).map (lastColByte s)).getD r 0 =
      s.getD (bwtPred s.length ((bwtSort s).getD r 0)) 0 := lastCol_getD s r hr
  have hLF : lfRank ((bwtSort s).map (lastColByte s)) r =
      (List.range s.length).countP
        (fun p => decide (s.getD p 0 < s.getD (bwtPred s.length ((bwtSort s).getD r 0)) 0)) +
      (List.range s.length).countP
        (fun p => decide (s.getD p 0 = s.getD (bwtPred s.length ((bwtSort s).getD r 0)) 0 ∧
          rotKey s (bwtSucc s.length p) < rotKey s ((bwtSort s).getD r 0))) +
      (List.range s.length).countP
        (fun p => decide (s.getD p 0 = s.getD (bwtPred s.length ((bwtSort s).getD r 0)) 0 ∧
          rotKey s (bwtSucc s.length p) = rotKey s ((bwtSort s).getD r 0) ∧
          bwtSucc s.length p < (bwtSort s).getD r 0)) := by
    unfold lfRank
    rw [hLlen]
    have step1 : (List.range s.length).countP
        (fun j => decide (pairLt (((bwtSort s).map (lastColByte s)).getD j 0, j)
          (((bwtSort s).map (lastColByte s)).getD r 0, r))) =
        (List.range s.length).countP
          (fun j => (fun q => decide
            (s.getD (bwtPred s.length q) 0 <
              s.getD (bwtPred s.length ((bwtSort s).getD r 0)) 0 ∨
            (s.getD (bwtPred s.length q) 0 =
              s.getD (bwtPred s.length ((bwtSort s).getD r 0)) 0 ∧
              keyLt s q ((bwtSort s).getD r 0)))) ((bwtSort s).getD j 0)) := by
      apply List.countP_congr
      intro j hj
      have hjn : j < s.length := List.mem_range.mp hj
      simp only [decide_eq_true_eq]
      have hLj : ((bwtSort s).map (lastColByte s)).getD j 0 =
          s.getD (bwtPred s.length ((bwtSort s).getD j 0)) 0 := lastCol_getD s j hjn
      have hpair : pairLt (((bwtSort s).map (lastColByte s)).getD j 0, j)
          (((bwtSort s).map (lastColByte s)).getD r 0, r) ↔
          (((bwtSort s).map (lastColByte s)).getD j 0 <
            ((bwtSort s).map (lastColByte s)).getD r 0 ∨
          (((bwtSort s).map (lastColByte s)).getD j 0 =
            ((bwtSort s).map (lastColByte s)).getD r 0 ∧ j < r)) := Iff.rfl
      rw [hpair, hLj, hLr, bwtSort_lt_iff s j r hjn hr]
    have hre1 := countP_reindex_bwtSort s (fun q => decide
      (s.getD (bwtPred s.length q) 0 <
        s.getD (bwtPred s.length ((bwtSort s).getD r 0)) 0 ∨
      (s.getD (bwtPred s.length q) 0 =
        s.getD (bwtPred s.length ((bwtSort s).getD r 0)) 0 ∧
        keyLt s q ((bwtSort s).getD r 0))))
    have hre2 := countP_reindex_bwtSucc s.length hn (fun q => decide
      (s.getD (bwtPred s.length q) 0 <
        s.getD (bwtPred s.length ((bwtSort s).getD r 0)) 0 ∨
      (s.getD (bwtPred s.length q) 0 =
        s.getD (bwtPred s.length ((bwtSort s).getD r 0)) 0 ∧
        keyLt s q ((bwtSort s).getD r 0))))
    rw [step1, hre1, ← hre2]
    have step4 : (List.range s.length).countP
        (fun p => (fun q => decide
          (s.getD (bwtPred s.length q) 0 <
            s.getD (bwtPred s.length ((bwtSort s).getD r 0)) 0 ∨
          (s.getD (bwtPred s.length q) 0 =
            s.getD (bwtPred s.length ((bwtSort s).getD r 0)) 0 ∧
            keyLt s q ((bwtSort s).getD r 0)))) (bwtSucc s.length p)) =
        (List.range s.length).countP
          (fun p => decide (s.getD p 0 <
              s.getD (bwtPred s.length ((bwtSort s).getD r 0)) 0) ||
            (decide (s.getD p 0 = s.getD (bwtPred s.length ((bwtSort s).getD r 0)) 0 ∧
              rotKey s (bwtSucc s.length p) < rotKey s ((bwtSort s).getD r 0)) ||
            decide (s.getD p 0 = s.getD (bwtPred s.length ((bwtSort s).getD r 0)) 0 ∧
              rotKey s (bwtSucc s.length p) = rotKey s ((bwtSort s).getD r 0) ∧
              bwtSucc s.length p < (bwtSort s).getD r 0))) := by
      apply List.countP_congr
      intro p hp
      have hpn : p < s.length := List.mem_range.mp hp
      simp only [Bool.or_eq_true, decide_eq_true_eq]
      rw [bwtPred_bwtSucc s.length p hpn]
      unfold keyLt
      tauto
    rw [step4]
    have hsplit1 : (List.range s.length).countP
        (fun p => decide (s.getD p 0 <
            s.getD (bwtPred s.length ((bwtSort s).getD r 0)) 0) ||
          (decide (s.getD p 0 = s.getD (bwtPred s.length ((bwtSort s).getD r 0)) 0 ∧
            rotKey s (bwtSucc s.length p) < rotKey s ((bwtSort s).getD r 0)) ||
          decide (s.getD p 0 = s.getD (bwtPred s.length ((bwtSort s).getD r 0)) 0 ∧
            rotKey s (bwtSucc s.length p) = rotKey s ((bwtSort s).getD r 0) ∧
            bwtSucc s.length p < (bwtSort s).getD r 0))) =
        (List.range s.length).countP
          (fun p => decide (s.getD p 0 <
            s.getD (bwtPred s.length ((bwtSort s).getD r 0)) 0)) +
        (List.range s.length).countP
          (fun p => decide (s.getD p 0 = s.getD (bwtPred s.length ((bwtSort s).getD r 0)) 0 ∧
            rotKey s (bwtSucc s.length p) < rotKey s ((bwtSort s).getD r 0)) ||
          decide (s.getD p 0 = s.getD (bwtPred s.length ((bwtSort s).getD r 0)) 0 ∧
            rotKey s (bwtSucc s.length p) = rotKey s ((bwtSort s).getD r 0) ∧
            bwtSucc s.length p < (bwtSort s).getD r 0)) := by
      apply countP_or_disjoint
      intro x _
      simp only [Bool.or_eq_true, decide_eq_true_eq]
      rintro ⟨h1, h2 | h2⟩ <;> omega
    have hsplit2 : (List.range s.length).countP
        (fun p => decide (s.getD p 0 = s.getD (bwtPred s.length ((bwtSort s).getD r 0)) 0 ∧
            rotKey s (bwtSucc s.length p) < rotKey s ((bwtSort s).getD r 0)) ||
          decide (s.getD p 0 = s.getD (bwtPred s.length ((bwtSort s).getD r 0)) 0 ∧
            rotKey s (bwtSucc s.length p) = rotKey s ((bwtSort s).getD r 0) ∧
            bwtSucc s.length p < (bwtSort s).getD r 0)) =
        (List.range s.length).countP
          (fun p => decide (s.getD p 0 = s.getD (bwtPred s.length ((bwtSort s).getD r 0)) 0 ∧
            rotKey s (bwtSucc s.length p) < rotKey s ((bwtSort s).getD r 0))) +
        (List.range s.length).countP
          (fun p => decide (s.getD p 0 = s.getD (bwtPred s.length ((bwtSort s).getD r 0)) 0 ∧
            rotKey s (bwtSucc s.length p) = rotKey s ((bwtSort s).getD r 0) ∧
            bwtSucc s.length p < (bwtSort s).getD r 0)) := by
      apply countP_or_disjoint
      intro x _
      simp only [decide_eq_true_eq]
      rintro ⟨⟨_, h1⟩, _, h2, _⟩
      rw [h2] at h1
      exact lt_irrefl _ h1
    rw [hsplit1, hsplit2]
    omega
  have hA : (List.range s.length).countP
      (fun j => decide (rotKey s j < rotKey s (bwtPred s.length ((bwtSort s).getD r 0)))) =
      (List.range s.length).countP
        (fun p => decide (s.getD p 0 <
          s.getD (bwtPred s.length ((bwtSort s).getD r 0)) 0)) +
      (List.range s.length).countP
        (fun p => decide (s.getD p 0 = s.getD (bwtPred s.length ((bwtSort s).getD r 0)) 0 ∧
          rotKey s (bwtSucc s.length p) < rotKey s ((bwtSort s).getD r 0))) := by
    have hcong : (List.range s.length).countP
        (fun j => decide (rotKey s j < rotKey s (bwtPred s.length ((bwtSort s).getD r 0)))) =
        (List.range s.length).countP
          (fun p => decide (s.getD p 0 <
              s.getD (bwtPred s.length ((bwtSort s).getD r 0)) 0) ||
            decide (s.getD p 0 = s.getD (bwtPred s.length ((bwtSort s).getD r 0)) 0 ∧
              rotKey s (bwtSucc s.length p) < rotKey s ((bwtSort s).getD r 0))) := by
      apply List.countP_congr
      intro p hp
      have hpn : p < s.length := List.mem_range.mp hp
      simp only [Bool.or_eq_true, decide_eq_true_eq]
      exact rot_lt_pred_iff s p ((bwtSort s).getD r 0) hpn hi
    rw [hcong]
    apply countP_or_disjoint
    intro x _
    simp only [decide_eq_true_eq]
    rintro ⟨h1, h2, _⟩
    omega
  have hm : (List.range s.length).countP
      (fun j => decide (rotKey s j = rotKey s (bwtPred s.length ((bwtSort s).getD r 0)))) =
      (List.range s.length).countP
        (fun p => decide (s.getD p 0 = s.getD (bwtPred s.length ((bwtSort s).getD r 0)) 0 ∧
          rotKey s (bwtSucc s.length p) = rotKey s ((bwtSort s).getD r 0))) := by
    apply List.countP_congr
    intro p hp
    have hpn : p < s.length := List.mem_range.mp hp
    simp only [decide_eq_true_eq]
    exact rot_eq_pred_iff s p ((bwtSort s).getD r 0) hpn hi
  have hD : (List.range s.length).countP
      (fun p => decide (s.getD p 0 = s.getD (bwtPred s.length ((bwtSort s).getD r 0)) 0 ∧
        rotKey s (bwtSucc s.length p) = rotKey s ((bwtSort s).getD r 0) ∧
        bwtSucc s.length p < (bwtSort s).getD r 0)) <
      (List.range s.length).countP
        (fun p => decide (s.getD p 0 = s.getD (bwtPred s.length ((bwtSort s).getD r 0)) 0 ∧
          rotKey s (bwtSucc s.length p) = rotKey s ((bwtSort s).getD r 0))) := by
    apply countP_lt_of_witness _ _ _ ?_ (bwtPred s.length ((bwtSort s).getD r 0)) ?_ ?_ ?_
    · intro x _ hx
      simp only [decide_eq_true_eq] at hx ⊢
      exact ⟨hx.1, hx.2.1⟩
    · exact List.mem_range.mpr hpred
    · refine decide_eq_true ?_
      exact ⟨rfl, by rw [bwtSucc_bwtPred s.length ((bwtSort s).getD r 0) hi]⟩
    · simp only [decide_eq_false_iff_not, not_and]
      intro _ _
      rw [bwtSucc_bwtPred s.length ((bwtSort s).getD r 0) hi]
      exact lt_irrefl _
  apply bwt_block s (rotKey s (bwtPred s.length ((bwtSort s).getD r 0)))
    (lfRank ((bwtSort s).map (lastColByte s)) r) hrank_lt
  · rw [hA, hLF]
    omega
  · have hsum : (List.range s.length).countP
        (fun j => decide (rotKey s j < rotKey s (bwtPred s.length ((bwtSort s).getD r 0))) ||
          decide (rotKey s j = rotKey s (bwtPred s.length ((bwtSort s).getD r 0)))) =
        (List.range s.length).countP
          (fun j => decide (rotKey s j <
            rotKey s (bwtPred s.length ((bwtSort s).getD r 0)))) +
        (List.range s.length).countP
          (fun j => decide (rotKey s j =
            rotKey s (bwtPred s.length ((bwtSort s).getD r 0)))) := by
      apply countP_or_disjoint
      intro x _
      simp only [decide_eq_true_eq]
      rintro ⟨h1, h2⟩
      rw [h2] at h1
      exact lt_irrefl _ h1
    rw [hsum, hA, hm, hLF]
    omega

/-- `walkSpec` with no wraparound reads a reversed slice of the source. -/
theorem walkSpec_slice (s : List Nat) : ∀ (k t : Nat), k ≤ t → t < s.length →
    walkSpec s t k = ((s.drop (t - k)).take k).reverse
  | 0, _, _, _ => rfl
  | k + 1, t, hk, ht => by
    have h1 : 1 ≤ t := by omega
    have hpred : bwtPred s.length t = t - 1 := bwtPred_of_pos s.length t h1 ht
    have ht1 : t - 1 < s.length := by omega
    have hk1 : k ≤ t - 1 := by omega
    have hIH := walkSpec_slice s k (t - 1) hk1 ht1
    show s.getD (bwtPred s.length t) 0 :: walkSpec s (bwtPred s.length t) k =
      ((s.drop (t - (k + 1))).take (k + 1)).reverse
    rw [hpred, hIH]
    have hm : t - (k + 1) = t - 1 - k := by omega
    rw [hm]
    have hidx : t - 1 - k + k = t - 1 := by omega
    have hget : (s.drop (t - 1 - k))[k]? = some (s.getD (t - 1) 0) := by
      rw [List.getElem?_drop, hidx, List.getElem?_eq_getElem ht1,
        getD_of_lt s 0 (t - 1) ht1]
      rfl
    rw [List.take_succ, hget, List.reverse_append]
    rfl

/-- The full `n`-step walk from conceptual rotation `0` spells the source in
reverse. -/
theorem walkSpec_zero_full (s : List Nat) (hn : 0 < s.length) :
    walkSpec s 0 s.length = s.reverse := by
  obtain ⟨m, hm⟩ : ∃ m, s.length = m + 1 := ⟨s.length - 1, by omega⟩
  have hm1 : s.length - 1 = m := by omega
  have hstep : walkSpec s 0 s.length =
      s.getD m 0 :: walkSpec s m m := by
    conv_lhs => rw [hm]
    show s.getD (bwtPred s.length 0) 0 :: walkSpec s (bwtPred s.length 0) m = _
    rw [bwtPred_zero s.length hn, hm1]
  rw [hstep]
  have hmlt : m < s.length := by omega
  rw [walkSpec_slice s m m (le_refl m) hmlt]
  have h0 : m - m = 0 := by omega
  rw [h0, List.drop_zero]
  have hdrop : s.drop m = [s.getD m 0] := by
    rw [List.drop_eq_getElem_cons hmlt, ← hm, List.drop_length,
      getD_of_lt s 0 m hmlt]
    rfl
  conv_rhs => rw [← List.take_append_drop m s]
  rw [List.reverse_append, hdrop]
  rfl

/-- The LF walk over the real table agrees with the conceptual
predecessor walk, provided the starting row carries the starting rotation. -/
theorem lfWalk_spec (s : List Nat) (hn : 0 < s.length) (LF : List Nat)
    (hLF : LF = (List.range s.length).map (lfRank ((bwtSort s).map (lastColByte s)))) :
    ∀ (k r t : Nat), r < s.length → t < s.length →
      rotKey s ((bwtSort s).getD r 0) = rotKey s t →
      lfWalk ((bwtSort s).map (lastColByte s)) LF r k = walkSpec s t k
  | 0, _, _, _, _, _ => rfl
  | k + 1, r, t, hr, ht, hrot => by
    have hi : (bwtSort s).getD r 0 < s.length := bwtSort_getD_lt s r hr
    have hL : ((bwtSort s).map (lastColByte s)).getD r 0 =
        s.getD (bwtPred s.length t) 0 := by
      rw [lastCol_getD s r hr]
      have h1 := rotKey_getLast? s ((bwtSort s).getD r 0) hi
      have h2 := rotKey_getLast? s t ht
      rw [hrot] at h1
      exact Option.some_inj.mp (h1.symm.trans h2)
    have hstep := lf_step s hn r hr
    have hLFr : LF.getD r 0 = lfRank ((bwtSort s).map (lastColByte s)) r := by
      rw [hLF]
      exact getD_map_range s.length _ r hr
    show ((bwtSort s).map (lastColByte s)).getD r 0 ::
        lfWalk ((bwtSort s).map (lastColByte s)) LF (LF.getD r 0) k =
      s.getD (bwtPred s.length t) 0 :: walkSpec s (bwtPred s.length t) k
    rw [hL, hLFr]
    congr 1
    apply lfWalk_spec s hn LF hLF k _ (bwtPred s.length t) hstep.1 (bwtPred_lt _ _ hn)
    exact hstep.2.trans (rotKey_pred_congr s ((bwtSort s).getD r 0) t hi ht hrot)

/-- Shape of `bwt_inverse` on a nonempty column with an in-range primary. -/
theorem bwt_inverse_some (last LF : List Nat) (hlen : 0 < last.length)
    (hLF : lfList last = some LF) (primary : Nat) (hp : primary < last.length) :
    bwt_inverse last primary = some (lfWalk last LF primary last.length).reverse := by
  unfold bwt_inverse
  rw [if_neg (by omega), hLF]
  simp only []
  rw [if_pos hp]

/-- BWT round trip: `bwt_inverse` recovers the input of `bwt_transform`,
including all tie cases among equal rotations. -/
theorem bwt_roundtrip (s : List Nat) :
    bwt_inverse (bwt_transform s).1 (bwt_transform s).2 = some s := by
  rcases Nat.eq_zero_or_pos s.length with h0 | hn
  · rw [List.length_eq_zero.mp h0]
    rfl
  · have hT : bwt_transform s =
        ((bwtSort s).map (lastColByte s), List.indexOf 0 (bwtSort s)) := by
      unfold bwt_transform
      rw [if_neg (by omega)]
    rw [hT]
    have hLlen : ((bwtSort s).map (lastColByte s)).length = s.length := by
      rw [List.length_map, bwtSort_length]
    have hmem : 0 ∈ bwtSort s := (mem_bwtSort s 0).mpr hn
    have hplt' : List.indexOf 0 (bwtSort s) < (bwtSort s).length :=
      List.indexOf_lt_length.mpr hmem
    have hplt : List.indexOf 0 (bwtSort s) < s.length := by
      rw [← bwtSort_length s]
      exact hplt'
    have hpget : (bwtSort s).getD (List.indexOf 0 (bwtSort s)) 0 = 0 := by
      rw [getD_of_lt _ _ _ hplt']
      exact List.indexOf_get hplt'
    have hLF := lfList_eq ((bwtSort s).map (lastColByte s))
    rw [hLlen] at hLF
    have hinv := bwt_inverse_some ((bwtSort s).map (lastColByte s))
      ((List.range s.length).map (lfRank ((bwtSort s).map (lastColByte s))))
      (by rw [hLlen]; exact hn) hLF (List.indexOf 0 (bwtSort s))
      (by rw [hLlen]; exact hplt)
    rw [hinv, hLlen]
    have hwalk : lfWalk ((bwtSort s).map (lastColByte s))
        ((List.range s.length).map (lfRank ((bwtSort s).map (lastColByte s))))
        (List.indexOf 0 (bwtSort s)) s.length = s.reverse := by
      rw [← walkSpec_zero_full s hn]
      exact lfWalk_spec s hn _ rfl s.length (List.indexOf 0 (bwtSort s)) 0 hplt hn
        (by rw [hpget])
    rw [hwalk, List.reverse_reverse]

/-- The inner run loop consumes a prefix of copies of `b`: prepending the
`run` bytes already counted, the input splits as the final count of copies
of `b` followed by the unconsumed remainder. -/
theorem countRun_decomp (b : Nat) : ∀ (xs : List Nat) (run : Nat),
    run ≤ (countRun b xs run).1 ∧
    List.replicate run b ++ xs =
      List.replicate (countRun b xs run).1 b ++ (countRun b xs run).2
  | [], run => by simp [countRun]
  | x :: xs, run => by
    by_cases h : x = b ∧ run < 255
    · have hIH := countRun_decomp b xs (run + 1)
      simp only [countRun, if_pos h]
      refine ⟨by omega, ?_⟩
      have key : List.replicate run b ++ x :: xs = List.replicate (run + 1) b ++ xs := by
        rw [h.1, List.replicate_succ', List.append_assoc]
        rfl
      rw [key]
      exact hIH.2
    · simp only [countRun, if_neg h]
      exact ⟨Nat.le_refl run, trivial⟩

theorem itf_rle_tf_rle_len : ∀ (n : Nat) (data : List Nat), data.length ≤ n →
    itf_rle (tf_rle data) = data := by
  intro n
  induction n with
  | zero =>
    intro data h
    have hnil : data = [] := List.eq_nil_of_length_eq_zero (by omega)
    rw [hnil]
    rfl
  | succ n ih =>
    intro data h
    cases data with
    | nil => rfl
    | cons b rest =>
      rw [tf_rle_cons]
      show List.replicate (countRun b rest 1).1 b ++
        itf_rle (tf_rle (countRun b rest 1).2) = b :: rest
      have hih := ih (countRun b rest 1).2 (by
        have h2 := countRun_snd_length b rest 1
        simp only [List.length_cons] at h
        omega)
      rw [hih]
      have hd := countRun_decomp b rest 1
      rw [← hd.2]
      rfl

/-- RLE round trip: decoding the encoder's pair stream restores the input. -/
theorem itf_rle_tf_rle (data : List Nat) : itf_rle (tf_rle data) = data :=
  itf_rle_tf_rle_len data.length data (Nat.le_refl _)

/-- `alphabet.index(b)` returns an in-range position holding `b`. -/
theorem mtfFind_get : ∀ (alphabet : List Nat) (b idx : Nat),
    mtfFind alphabet b = some idx →
    ∃ h : idx < alphabet.length, alphabet.get ⟨idx, h⟩ = b
  | [], b, idx => by
    intro h
    cases h
  | a :: rest, b, idx => by
    intro h
    simp only [mtfFind] at h
    by_cases hab : a = b
    · rw [if_pos hab] at h
      have h0 : idx = 0 := (Option.some_inj.mp h).symm
      subst h0
      exact ⟨by simp, hab⟩
    · rw [if_neg hab] at h
      cases hf : mtfFind rest b with
      | none =>
        rw [hf] at h
        simp at h
      | some j =>
        rw [hf] at h
        simp only [Option.map_some'] at h
        have h1 : idx = j + 1 := (Option.some_inj.mp h).symm
        subst h1
        obtain ⟨hj, hg⟩ := mtfFind_get rest b j hf
        exact ⟨by simp only [List.length_cons]; omega, hg⟩

/-- MTF round trip at any alphabet: a successful encode decodes back. -/
theorem mtf_aux_roundtrip : ∀ (data alphabet out : List Nat),
    mtfEncodeAux alphabet data = some out → mtfDecodeAux alphabet out = some data
  | [], _, out => by
    intro h
    rw [← Option.some_inj.mp h]
    rfl
  | b :: rest, alphabet, out => by
    intro h
    simp only [mtfEncodeAux] at h
    split at h
    next hf => simp at h
    next idx hf =>
      cases he : mtfEncodeAux (b :: alphabet.eraseIdx idx) rest with
      | none =>
        rw [he] at h
        simp at h
      | some res =>
        rw [he] at h
        simp only [Option.map_some'] at h
        have hout : out = idx :: res := (Option.some_inj.mp h).symm
        subst hout
        obtain ⟨hlt, hget⟩ := mtfFind_get alphabet b idx hf
        show mtfDecodeAux alphabet (idx :: res) = some (b :: rest)
        simp only [mtfDecodeAux]
        rw [dif_pos hlt, hget]
        rw [mtf_aux_roundtrip rest (b :: alphabet.eraseIdx idx) res he]
        rfl

/-- MTF round trip at the full byte alphabet. -/
theorem mtf_roundtrip (data out : List Nat) (h : mtf_encode data = some out) :
    mtf_decode out = some data :=
  mtf_aux_roundtrip data (List.range 256) out h

theorem pack_u32_eq (m : Nat) (h : m < 4294967296) : pack_u32 m = some (be32enc m) := by
  unfold pack_u32
  rw [if_pos h]
  rfl

theorem itf_bwt_mtf_rle_eq (payload : List Nat) (h4 : ¬ payload.length < 4) :
    itf_bwt_mtf_rle payload =
      match mtf_decode (itf_rle (payload.drop 4)) with
      | none => none
      | some bl => bwt_inverse bl (unpack_u32 (payload.take 4)) := by
  unfold itf_bwt_mtf_rle
  rw [if_neg h4]

/-- Composite round trip: a successful `tf_bwt_mtf_rle` is inverted exactly
by `itf_bwt_mtf_rle`. -/
theorem bwt_mtf_rle_roundtrip (s out : List Nat) (h : tf_bwt_mtf_rle s = some out) :
    itf_bwt_mtf_rle out = some s := by
  simp only [tf_bwt_mtf_rle] at h
  cases hf : mtf_encode (bwt_transform s).1 with
  | none =>
    rw [hf] at h
    simp at h
  | some mtf =>
    rw [hf] at h
    by_cases hlt : (bwt_transform s).2 < 4294967296
    · rw [pack_u32_eq _ hlt] at h
      simp only [Option.map_some'] at h
      have hout : out = be32enc (bwt_transform s).2 ++ tf_rle mtf :=
        (Option.some_inj.mp h).symm
      subst hout
      have h4 : ¬ (be32enc (bwt_transform s).2 ++ tf_rle mtf).length < 4 := by
        rw [List.length_append, be32enc_length]
        omega
      rw [itf_bwt_mtf_rle_eq _ h4,
        take_append_len _ _ 4 (be32enc_length _),
        drop_append_len _ _ 4 (be32enc_length _),
        itf_rle_tf_rle, mtf_roundtrip (bwt_transform s).1 mtf hf]
      show bwt_inverse (bwt_transform s).1 (unpack_u32 (be32enc (bwt_transform s).2)) =
        some s
      rw [unpack_u32_be32enc _ hlt]
      exact bwt_roundtrip s
    · have hnone : pack_u32 (bwt_transform s).2 = none := by
        unfold pack_u32
        rw [if_neg hlt]
      rw [hnone] at h
      simp at h

/-- Claim C1: for every registered transform (`none`, `delta`, `rle`,
`bwt_mtf_rle`) and every byte string `s` (bytes `< 256`, including the empty
string and strings of a single repeated byte), whenever the registered
forward transform succeeds, the registered inverse returns `s` exactly —
for BWT via LF-mapping, including all tie cases among equal rotations. -/
theorem c1_transform_roundtrip
    (e : String × (List Nat → Option (List Nat)) × (List Nat → Option (List Nat)))
    (he : e ∈ TRANSFORMS) (s : List Nat) (hbytes : ∀ b ∈ s, b < 256)
    (out : List Nat) (hfwd : e.2.1 s = some out) : e.2.2 out = some s := by
  simp only [TRANSFORMS, List.mem_cons, List.mem_nil_iff, or_false] at he
  rcases he with rfl | rfl | rfl | rfl
  · exact hfwd.symm
  · have hd : out = tf_delta s := (Option.some_inj.mp hfwd).symm
    subst hd
    exact congrArg some (itfDeltaAux_tfDeltaAux s 0 (by norm_num) hbytes)
  · have hr : out = tf_rle s := (Option.some_inj.mp hfwd).symm
    subst hr
    exact congrArg some (itf_rle_tf_rle s)
  · exact bwt_mtf_rle_roundtrip s out hfwd

/-- Claim C1 witness: the `bwt_mtf_rle` registry entry on `b"aba"`, whose
rotations tie on the first byte. -/
theorem c1_transform_roundtrip_witness :
    ("bwt_mtf_rle", tf_bwt_mtf_rle, itf_bwt_mtf_rle) ∈ TRANSFORMS ∧
    (∀ b ∈ [97, 98, 97], b < 256) ∧
    tf_bwt_mtf_rle [97, 98, 97] = some [0, 0, 0, 1, 98, 2, 0, 1] ∧
    itf_bwt_mtf_rle [0, 0, 0, 1, 98, 2, 0, 1] = some [97, 98, 97] :=
  ⟨List.mem_cons_of_mem _ (List.mem_cons_of_mem _ (List.mem_cons_of_mem _
      (List.mem_cons_self _ _))),
   by decide, by decide,
   c1_transform_roundtrip ("bwt_mtf_rle", tf_bwt_mtf_rle, itf_bwt_mtf_rle)
     (List.mem_cons_of_mem _ (List.mem_cons_of_mem _ (List.mem_cons_of_mem _
       (List.mem_cons_self _ _))))
     [97, 98, 97] (by decide) [0, 0, 0, 1, 98, 2, 0, 1] (by decide)⟩

end QDSX
